import Mathlib

/-!
# Verification of `syp::hash_map` (src/hash_map.hxx)

A shallow embedding of the separate-chaining hash map of `src/hash_map.hxx`
and theorems about it.

Modelling conventions.

* Keys.  The container is "for numerics": the key type `T` is an integral
  type.  A key is modelled by its mathematical value, an `Int`; this covers
  signed and unsigned key types of every width.
* Chains.  A chain of `hash_map_node`s linked through `next` is a `List` of
  nodes: `[]` is the null pointer and `n :: rest` is a node `n` whose `next`
  is the chain `rest`.  Every node has exactly one owner, so the in-place
  pointer updates of the source are list rebuilds here.
* Bucket array.  `m_memory_bucket` is an array of `c_max_hash_map_head_nodes`
  slots, allocated once by the constructor and never reassigned: a function
  on `Fin c_max_hash_map_head_nodes`.
* Undefined behaviour.  The source indexes the array without a bounds check.
  An index outside the array is undefined behaviour in C++; here
  `get_head_node` answers `none` for it, and `insert`, `get` and `remove`
  propagate that `none`.
* `m_size` is a `size_t`.  `++m_size` is `+ 1` on `Nat`: the counter only
  grows together with a live heap node, and fewer than `2 ^ 64` nodes fit in
  a 64-bit address space, so the increment cannot wrap.  `--m_size` is
  modelled with its wrap-around at zero (`size_t_decrement`).
-/

namespace syp

/-- One node of a chain (`struct hash_map_node`): a key and a value.  The
`next` pointer is the tail of the list the node sits in. -/
structure hash_map_node (V : Type) where
  key : Int
  value : V
deriving DecidableEq

/-- The constant `c_max_hash_map_head_nodes` of the source (line 185):
`std::numeric_limits<unsigned short>::max()`, that is `2 ^ 16 - 1`. -/
def c_max_hash_map_head_nodes : Nat := 2 ^ 16 - 1

/-- The class `hash_map`: the counter `m_size` and the bucket array
`m_memory_bucket` with `c_max_hash_map_head_nodes` slots, each holding the
head of a chain. -/
structure hash_map (V : Type) where
  m_size : Nat
  m_memory_bucket : Fin c_max_hash_map_head_nodes → List (hash_map_node V)

/-- Decrement of a `size_t` (`--m_size`): wraps from `0` to `2 ^ 64 - 1`. -/
def size_t_decrement (n : Nat) : Nat :=
  if n = 0 then 2 ^ 64 - 1 else n - 1

namespace hash_map

variable {V : Type}

/-- The constructor (lines 45-48): `m_size(0)` and a freshly allocated array
of `c_max_hash_map_head_nodes` null head pointers. -/
def new : hash_map V :=
  { m_size := 0, m_memory_bucket := fun _ => [] }

/-- The function `hash` (lines 176-180): `return p_key % c_max_hash_map_head_nodes;`.
After the usual arithmetic conversions `%` is the truncating remainder of the
two mathematical values (`Int.tmod`); the `return` converts the result to
`unsigned short`, that is reduces it modulo `2 ^ 16`. -/
def hash (p_key : Int) : Nat :=
  ((Int.tmod p_key (c_max_hash_map_head_nodes : Int)) % 2 ^ 16).toNat

/-- The function `get_head_node` (lines 163-168).  The source returns a
reference to slot `bucket_index` of the array; the reference is modelled by
the slot index.  The source does not check the index: `none` stands for an
access outside the array. -/
def get_head_node (p_key : Int) : Option (Fin c_max_hash_map_head_nodes) :=
  let bucket_index := hash p_key
  if h : bucket_index < c_max_hash_map_head_nodes then some ⟨bucket_index, h⟩ else none

/-- The tail search of `insert` (lines 73-77): starting at `current_node`,
whose `next` is the second argument, follow `next` while it is not null, then
set `next` of the last node to `new_node`.  The result is the chain from
`current_node` on. -/
def insert_walk (new_node : hash_map_node V) :
    hash_map_node V → List (hash_map_node V) → List (hash_map_node V)
  | current_node, [] => [current_node, new_node]
  | current_node, next :: rest => current_node :: insert_walk new_node next rest

/-- The method `insert` (lines 53-79). -/
def insert (t : hash_map V) (p_key : Int) (p_value : V) : Option (hash_map V) :=
  match get_head_node p_key with
  | none => none
  | some head_node =>
    let new_node : hash_map_node V := { key := p_key, value := p_value }
    match t.m_memory_bucket head_node with
    | [] =>
      some { m_size := t.m_size + 1,
             m_memory_bucket := Function.update t.m_memory_bucket head_node [new_node] }
    | current_node :: next =>
      some { m_size := t.m_size + 1,
             m_memory_bucket :=
               Function.update t.m_memory_bucket head_node (insert_walk new_node current_node next) }

/-- The loop of `get` (lines 93-99): walk the chain from `current_node` and
return the value of the first node whose key equals `p_key`, or `nullopt`. -/
def get_walk (p_key : Int) : List (hash_map_node V) → Option V
  | [] => none
  | current_node :: next =>
    if current_node.key = p_key then some current_node.value else get_walk p_key next

/-- The method `get` (lines 84-100).  The outer `Option` is `none` only for
an access outside the array; the inner one is the `std::optional` returned. -/
def get (t : hash_map V) (p_key : Int) : Option (Option V) :=
  match get_head_node p_key with
  | none => none
  | some head_node => some (get_walk p_key (t.m_memory_bucket head_node))

/-- The loop of `remove` (lines 121-130): starting at `current_node`, whose
`next` is the second argument, look one node ahead; the first node ahead whose
key equals `p_key` is unlinked.  The result says whether a node was unlinked
and gives the chain from `current_node` on. -/
def remove_walk (p_key : Int) :
    hash_map_node V → List (hash_map_node V) → Bool × List (hash_map_node V)
  | current_node, [] => (false, [current_node])
  | current_node, next :: rest =>
    if next.key = p_key then (true, current_node :: rest)
    else ((remove_walk p_key next rest).1, current_node :: (remove_walk p_key next rest).2)

/-- The method `remove` (lines 102-131). -/
def remove (t : hash_map V) (p_key : Int) : Option (hash_map V) :=
  match get_head_node p_key with
  | none => none
  | some head_node =>
    match t.m_memory_bucket head_node with
    | [] => some t
    | current_node :: next =>
      if current_node.key = p_key then
        some { m_size := size_t_decrement t.m_size,
               m_memory_bucket := Function.update t.m_memory_bucket head_node next }
      else if (remove_walk p_key current_node next).1 then
        some { m_size := size_t_decrement t.m_size,
               m_memory_bucket :=
                 Function.update t.m_memory_bucket head_node (remove_walk p_key current_node next).2 }
      else some t

/-- The loop of `clear` (lines 135-138).  `bucket_index` is an
`unsigned short`, so `++bucket_index` is `+ 1` modulo `2 ^ 16`; the loop runs
while `bucket_index < c_max_hash_map_head_nodes` and resets the slot it is at.
The recursion is well founded because the counter cannot wrap below the
bound. -/
def clear_loop (bucket_index : Nat)
    (m_memory_bucket : Fin c_max_hash_map_head_nodes → List (hash_map_node V)) :
    Fin c_max_hash_map_head_nodes → List (hash_map_node V) :=
  if h : bucket_index < c_max_hash_map_head_nodes then
    clear_loop ((bucket_index + 1) % 2 ^ 16) (Function.update m_memory_bucket ⟨bucket_index, h⟩ [])
  else m_memory_bucket
termination_by c_max_hash_map_head_nodes - bucket_index
decreasing_by
  have hlt : bucket_index + 1 < 2 ^ 16 := by
    have : c_max_hash_map_head_nodes = 2 ^ 16 - 1 := rfl
    omega
  rw [Nat.mod_eq_of_lt hlt]
  omega

/-- The method `clear` (lines 133-140). -/
def clear (t : hash_map V) : hash_map V :=
  { m_size := 0, m_memory_bucket := clear_loop 0 t.m_memory_bucket }

/-- The method `size` (lines 142-145). -/
def size (t : hash_map V) : Nat := t.m_size

/-! ### Sequences of calls, reachable tables and the number of stored entries -/

/-- One call of a mutating public method. -/
inductive call (V : Type) where
  | insert (p_key : Int) (p_value : V)
  | remove (p_key : Int)
  | clear
deriving DecidableEq

/-- Perform one call on a table. -/
def apply_call (t : hash_map V) : call V → Option (hash_map V)
  | call.insert p_key p_value => insert t p_key p_value
  | call.remove p_key => remove t p_key
  | call.clear => some (clear t)

/-- Perform a sequence of calls, first call first. -/
def run_calls (t : hash_map V) : List (call V) → Option (hash_map V)
  | [] => some t
  | c :: cs =>
    match apply_call t c with
    | none => none
    | some t' => run_calls t' cs

/-- A table is reachable when some sequence of insert/remove/clear calls
builds it from a newly constructed table. -/
def Reachable (t : hash_map V) : Prop :=
  ∃ calls : List (call V), run_calls new calls = some t

/-- Number of entries reachable by walking all bucket chains from their heads. -/
def entry_count (t : hash_map V) : Nat :=
  ∑ i : Fin c_max_hash_map_head_nodes, (t.m_memory_bucket i).length

/-- Key `p_key` has an entry somewhere in the table. -/
def has_entry (t : hash_map V) (p_key : Int) : Prop :=
  ∃ i : Fin c_max_hash_map_head_nodes, ∃ e ∈ t.m_memory_bucket i, e.key = p_key

/-- Number of entries with key `p_key` in the whole table. -/
def key_count (t : hash_map V) (p_key : Int) : Nat :=
  ∑ i : Fin c_max_hash_map_head_nodes,
    (t.m_memory_bucket i).countP (fun e => decide (e.key = p_key))

/-- Every entry sits in the bucket that its key hashes to. -/
def bucket_consistent (t : hash_map V) : Prop :=
  ∀ i : Fin c_max_hash_map_head_nodes, ∀ e ∈ t.m_memory_bucket i, hash e.key = i.val

/-- A sample sequence of calls: keys `1` and `65536` share bucket `1`, key `1`
is inserted twice, key `7` sits alone in bucket `7`. -/
def demo_calls : List (call Nat) :=
  [call.insert 1 10, call.insert 65536 20, call.insert 1 30, call.insert 7 70]

/-- The table built by `demo_calls` from a newly constructed table. -/
def demo_table : hash_map Nat :=
  (run_calls new demo_calls).getD new

/-- Number of slots of a bucket array: an array with `n` slots is a function
on `Fin n`. -/
def slot_count {n : Nat} (_m_memory_bucket : Fin n → List (hash_map_node V)) : Nat := n

/-- The values stored under key `p_key`, oldest first: the values of the
entries with this key in the chain of bucket `hash(p_key)`. -/
def values_of (t : hash_map V) (p_key : Int) : List V :=
  match get_head_node p_key with
  | none => []
  | some head_node =>
    ((t.m_memory_bucket head_node).filter (fun e => decide (e.key = p_key))).map
      (fun e => e.value)

/-- The calls `insert(k, v)` for the pairs `(k, v)` of a list, in order. -/
def insert_calls (entries : List (Int × V)) : List (call V) :=
  entries.map (fun p => call.insert p.1 p.2)

/-- The entries inserted by the driver `src/main.cxx` (lines 15-19): the keys
`'a'` to `'z'`, that is `97` to `122`, with the values `1` to `26`. -/
def driver_entries : List (Int × Nat) :=
  (List.range 26).map (fun (i : Nat) => ((97 : Int) + (i : Int), i + 1))

/-- The loop of `clear` (lines 135-138) once more, recording its run: the
control flow is that of `clear_loop`, and next to the bucket array the result
gives the final value of the counter `bucket_index` and the slot indices
visited, in order, one per iteration. -/
def clear_loop_trace (bucket_index : Nat)
    (m_memory_bucket : Fin c_max_hash_map_head_nodes → List (hash_map_node V))
    (visited : List Nat) :
    Nat × List Nat × (Fin c_max_hash_map_head_nodes → List (hash_map_node V)) :=
  if h : bucket_index < c_max_hash_map_head_nodes then
    clear_loop_trace ((bucket_index + 1) % 2 ^ 16)
      (Function.update m_memory_bucket ⟨bucket_index, h⟩ []) (visited ++ [bucket_index])
  else (bucket_index, visited, m_memory_bucket)
termination_by c_max_hash_map_head_nodes - bucket_index
decreasing_by
  have hlt : bucket_index + 1 < 2 ^ 16 := by
    have : c_max_hash_map_head_nodes = 2 ^ 16 - 1 := rfl
    omega
  rw [Nat.mod_eq_of_lt hlt]
  omega

/-! ### The reference model: one association list -/

/-- Reference model, `insert`: append the pair to the end of the list. -/
def assoc_insert (l : List (Int × V)) (k : Int) (v : V) : List (Int × V) :=
  l ++ [(k, v)]

/-- Reference model, `get`: the value of the first pair with key `k`. -/
def assoc_get (l : List (Int × V)) (k : Int) : Option V :=
  (l.find? (fun p => decide (p.1 = k))).map (fun p => p.2)

/-- Reference model, `remove`: erase the first pair with key `k`. -/
def assoc_remove (l : List (Int × V)) (k : Int) : List (Int × V) :=
  l.eraseP (fun p => decide (p.1 = k))

/-- Reference model, `clear`: empty the list. -/
def assoc_clear (_l : List (Int × V)) : List (Int × V) := []

/-- Reference model, `size`: the length of the list. -/
def assoc_size (l : List (Int × V)) : Nat := l.length

/-- Reference model: perform one call. -/
def assoc_apply (l : List (Int × V)) : call V → List (Int × V)
  | call.insert p_key p_value => assoc_insert l p_key p_value
  | call.remove p_key => assoc_remove l p_key
  | call.clear => assoc_clear l

/-- Reference model: perform a sequence of calls, first call first. -/
def assoc_run (l : List (Int × V)) : List (call V) → List (Int × V)
  | [] => l
  | c :: cs => assoc_run (assoc_apply l c) cs

/-- The key of the call, if it has one, is in range. -/
def call_in_range : call V → Bool
  | call.insert p_key _ => decide (hash p_key < c_max_hash_map_head_nodes)
  | call.remove p_key => decide (hash p_key < c_max_hash_map_head_nodes)
  | call.clear => true

/-- The pair of a chain node. -/
def pair_of (e : hash_map_node V) : Int × V := (e.key, e.value)

/-- The table `t` represents the association list `l`: the counter is the
length of `l`, and the chain of each bucket holds, in the order of `l`, the
pairs of `l` whose key hashes to that bucket. -/
def refines (t : hash_map V) (l : List (Int × V)) : Prop :=
  t.m_size = l.length ∧
  ∀ i : Fin c_max_hash_map_head_nodes,
    (t.m_memory_bucket i).map pair_of = l.filter (fun p => decide (hash p.1 = i.val))

/-! ### The hash index -/

theorem c_max_eq : c_max_hash_map_head_nodes = 65535 := rfl

/-- The index returned by `hash` always fits the 16-bit return type. -/
theorem hash_lt_two_pow (p_key : Int) : hash_map.hash p_key < 2 ^ 16 := by
  unfold hash_map.hash
  have h := Int.emod_lt_of_pos (Int.tmod p_key (c_max_hash_map_head_nodes : Int)) (b := 2 ^ 16) (by norm_num)
  have h0 := Int.emod_nonneg (Int.tmod p_key (c_max_hash_map_head_nodes : Int)) (b := 2 ^ 16) (by norm_num)
  omega

theorem hash_of_nonneg (p_key : Int) (h : 0 ≤ p_key) :
    (hash_map.hash p_key : Int) = p_key % 65535 := by
  unfold hash_map.hash
  rw [c_max_eq, Int.tmod_eq_emod h (by norm_num)]
  have h1 := Int.emod_lt_of_pos p_key (b := 65535) (by norm_num)
  have h0 := Int.emod_nonneg p_key (b := 65535) (by norm_num)
  push_cast
  omega

/-- Every non-negative key is in range. -/
theorem hash_lt_of_nonneg (p_key : Int) (h : 0 ≤ p_key) :
    hash_map.hash p_key < c_max_hash_map_head_nodes := by
  have h2 := hash_of_nonneg p_key h
  have h1 := Int.emod_lt_of_pos p_key (b := 65535) (by norm_num)
  rw [c_max_eq]
  omega

theorem tmod_bounds (a : Int) :
    -65535 < Int.tmod a 65535 ∧ Int.tmod a 65535 < 65535 ∧ (a < 0 → Int.tmod a 65535 ≤ 0)
      ∧ (0 ≤ a → 0 ≤ Int.tmod a 65535) := by
  rcases a with n | n
  · have h : Int.tmod (Int.ofNat n) 65535 = ((n % 65535 : Nat) : Int) := rfl
    rw [h]
    have := Nat.mod_lt n (show 0 < 65535 by norm_num)
    refine ⟨by omega, by omega, ?_, by omega⟩
    intro hneg
    have : (0 : Int) ≤ Int.ofNat n := Int.ofNat_nonneg n
    omega
  · have h : Int.tmod (Int.negSucc n) 65535 = -(((n + 1) % 65535 : Nat) : Int) := rfl
    rw [h]
    have := Nat.mod_lt (n + 1) (show 0 < 65535 by norm_num)
    refine ⟨by omega, by omega, by omega, ?_⟩
    intro hpos
    have : Int.negSucc n < 0 := Int.negSucc_lt_zero n
    omega

theorem hash_eq_of_tmod_neg (p_key : Int) (h : Int.tmod p_key 65535 < 0) :
    (hash_map.hash p_key : Int) = Int.tmod p_key 65535 + 65536 := by
  unfold hash_map.hash
  rw [c_max_eq]
  have hb := tmod_bounds p_key
  push_cast
  omega

/-- The keys out of range are exactly those whose truncated remainder modulo
`65535` is `-1`, such as `-1` and `-65536`. -/
theorem hash_lt_iff (p_key : Int) :
    hash_map.hash p_key < c_max_hash_map_head_nodes ↔ Int.tmod p_key 65535 ≠ -1 := by
  have hb := tmod_bounds p_key
  rw [c_max_eq]
  by_cases hneg : Int.tmod p_key 65535 < 0
  · have := hash_eq_of_tmod_neg p_key hneg
    omega
  · have h0 : (hash_map.hash p_key : Int) = Int.tmod p_key 65535 := by
      unfold hash_map.hash
      rw [c_max_eq]
      push_cast
      omega
    omega

/-- On a non-negative key, of any width, `hash` is the key modulo the number of
slots. -/
theorem hash_eq_mod_of_nonneg (k : Int) (h : 0 ≤ k) :
    (hash_map.hash k : Int) = k % (c_max_hash_map_head_nodes : Int) ∧
    hash_map.hash k = k.toNat % c_max_hash_map_head_nodes := by
  have h1 := hash_of_nonneg k h
  rw [c_max_eq]
  refine ⟨by exact_mod_cast h1, ?_⟩
  have h2 : (k.toNat : Int) = k := Int.toNat_of_nonneg h
  omega

/-! ### The methods on an in-range key -/

theorem get_head_node_of_lt (p_key : Int) (h : hash_map.hash p_key < c_max_hash_map_head_nodes) :
    get_head_node p_key = some ⟨hash_map.hash p_key, h⟩ := by
  simp [get_head_node, h]

theorem get_head_node_of_not_lt (p_key : Int) (h : ¬ hash_map.hash p_key < c_max_hash_map_head_nodes) :
    get_head_node p_key = none := by
  simp [get_head_node, h]

theorem get_head_node_val (p_key : Int) (i : Fin c_max_hash_map_head_nodes)
    (h : get_head_node p_key = some i) : i.val = hash_map.hash p_key := by
  unfold get_head_node at h
  by_cases hlt : hash_map.hash p_key < c_max_hash_map_head_nodes
  · simp [hlt] at h
    rw [← h]
  · simp [hlt] at h

/-- The tail search of `insert` appends the new node to the chain. -/
theorem insert_walk_eq (new_node current_node : hash_map_node V) (next : List (hash_map_node V)) :
    insert_walk new_node current_node next = (current_node :: next) ++ [new_node] := by
  induction next generalizing current_node with
  | nil => rfl
  | cons n rest ih => simp [insert_walk, ih]

/-- On an in-range key `insert` appends one entry to the chain of bucket
`hash(p_key)` and adds one to `m_size`. -/
theorem insert_of_lt (t : hash_map V) (p_key : Int) (p_value : V)
    (h : hash_map.hash p_key < c_max_hash_map_head_nodes) :
    insert t p_key p_value =
      some { m_size := t.m_size + 1,
             m_memory_bucket := Function.update t.m_memory_bucket ⟨hash_map.hash p_key, h⟩
               (t.m_memory_bucket ⟨hash_map.hash p_key, h⟩ ++ [{ key := p_key, value := p_value }]) } := by
  unfold insert
  rw [get_head_node_of_lt p_key h]
  cases hc : t.m_memory_bucket ⟨hash_map.hash p_key, h⟩ with
  | nil => simp [hc]
  | cons c rest => simp [hc, insert_walk_eq]

theorem get_of_lt (t : hash_map V) (p_key : Int)
    (h : hash_map.hash p_key < c_max_hash_map_head_nodes) :
    get t p_key = some (get_walk p_key (t.m_memory_bucket ⟨hash_map.hash p_key, h⟩)) := by
  unfold get
  rw [get_head_node_of_lt p_key h]

/-- The loop of `get` is a search for the first entry with the key. -/
theorem get_walk_eq_find (p_key : Int) (chain : List (hash_map_node V)) :
    get_walk p_key chain = (chain.find? (fun e => decide (e.key = p_key))).map (fun e => e.value) := by
  induction chain with
  | nil => rfl
  | cons c rest ih =>
    by_cases hc : c.key = p_key
    · simp [get_walk, hc]
    · simp [get_walk, hc, ih]

theorem get_walk_eq_none_iff (p_key : Int) (chain : List (hash_map_node V)) :
    get_walk p_key chain = none ↔ ∀ e ∈ chain, e.key ≠ p_key := by
  induction chain with
  | nil => simp [get_walk]
  | cons c rest ih =>
    by_cases hc : c.key = p_key
    · simp [get_walk, hc]
    · simp [get_walk, hc, ih]

theorem get_walk_first (p_key : Int) (before : List (hash_map_node V)) (e : hash_map_node V)
    (after : List (hash_map_node V)) (hb : ∀ x ∈ before, x.key ≠ p_key) (he : e.key = p_key) :
    get_walk p_key (before ++ e :: after) = some e.value := by
  induction before with
  | nil => simp [get_walk, he]
  | cons c rest ih =>
    have hc : c.key ≠ p_key := hb c (List.mem_cons_self _ _)
    have hr : ∀ x ∈ rest, x.key ≠ p_key := fun x hx => hb x (List.mem_cons_of_mem _ hx)
    simp [get_walk, hc, ih hr]

theorem insert_of_not_lt (t : hash_map V) (p_key : Int) (p_value : V)
    (h : ¬ hash_map.hash p_key < c_max_hash_map_head_nodes) : insert t p_key p_value = none := by
  unfold insert
  rw [get_head_node_of_not_lt p_key h]

theorem get_of_not_lt (t : hash_map V) (p_key : Int)
    (h : ¬ hash_map.hash p_key < c_max_hash_map_head_nodes) : get t p_key = none := by
  unfold get
  rw [get_head_node_of_not_lt p_key h]

theorem remove_of_not_lt (t : hash_map V) (p_key : Int)
    (h : ¬ hash_map.hash p_key < c_max_hash_map_head_nodes) : remove t p_key = none := by
  unfold remove
  rw [get_head_node_of_not_lt p_key h]

/-- The loop of `remove` erases the first entry with the key after
`current_node`, and reports whether there was one. -/
theorem remove_walk_eq (p_key : Int) (current_node : hash_map_node V)
    (next : List (hash_map_node V)) :
    remove_walk p_key current_node next =
      (next.any (fun e => decide (e.key = p_key)),
       current_node :: next.eraseP (fun e => decide (e.key = p_key))) := by
  induction next generalizing current_node with
  | nil => rfl
  | cons n rest ih =>
    by_cases hn : n.key = p_key
    · simp [remove_walk, hn]
    · simp [remove_walk, hn, ih]

/-- On an in-range key `remove` erases the first entry with the key from the
chain of bucket `hash(p_key)` and decrements `m_size`, or changes nothing when
the chain has no such entry. -/
theorem remove_of_lt (t : hash_map V) (p_key : Int)
    (h : hash_map.hash p_key < c_max_hash_map_head_nodes) :
    remove t p_key =
      some (if (t.m_memory_bucket ⟨hash_map.hash p_key, h⟩).any (fun e => decide (e.key = p_key)) then
              { m_size := size_t_decrement t.m_size,
                m_memory_bucket := Function.update t.m_memory_bucket ⟨hash_map.hash p_key, h⟩
                  ((t.m_memory_bucket ⟨hash_map.hash p_key, h⟩).eraseP
                    (fun e => decide (e.key = p_key))) }
            else t) := by
  unfold remove
  rw [get_head_node_of_lt p_key h]
  cases hc : t.m_memory_bucket ⟨hash_map.hash p_key, h⟩ with
  | nil => simp [hc]
  | cons c rest =>
    by_cases hk : c.key = p_key
    · simp [hc, hk]
    · by_cases hany : rest.any (fun e => decide (e.key = p_key)) = true
      · simp [hc, hk, remove_walk_eq, hany]
      · simp [hc, hk, remove_walk_eq, hany]

/-- Started at `bucket_index`, the loop of `clear` resets every slot from
`bucket_index` on and leaves the slots below it alone. -/
theorem clear_loop_eq (n : Nat) :
    ∀ (bucket_index : Nat) (b : Fin c_max_hash_map_head_nodes → List (hash_map_node V)),
      c_max_hash_map_head_nodes - bucket_index = n →
      clear_loop bucket_index b = fun j => if bucket_index ≤ j.val then [] else b j := by
  induction n with
  | zero =>
    intro i b hn
    rw [clear_loop]
    have hi : ¬ i < c_max_hash_map_head_nodes := by omega
    simp only [hi, dite_false]
    funext j
    have hj := j.isLt
    have : ¬ i ≤ j.val := by omega
    simp [this]
  | succ n ih =>
    intro i b hn
    rw [clear_loop]
    have hi : i < c_max_hash_map_head_nodes := by omega
    have hlt : i + 1 < 2 ^ 16 := by
      have := c_max_eq
      omega
    simp only [hi, dite_true]
    rw [Nat.mod_eq_of_lt hlt, ih (i + 1) _ (by omega)]
    funext j
    by_cases hj : i + 1 ≤ j.val
    · have : i ≤ j.val := by omega
      simp [hj, this]
    · by_cases hji : j.val = i
      · have hje : j = ⟨i, hi⟩ := Fin.ext hji
        subst hje
        simp
      · have hne : j ≠ ⟨i, hi⟩ := fun hje => hji (by rw [hje])
        have : ¬ i ≤ j.val := by omega
        simp [hj, this, Function.update_noteq hne]

/-- After `clear` the table is a newly constructed one. -/
theorem clear_eq_new (t : hash_map V) : clear t = new := by
  unfold clear new
  rw [clear_loop_eq _ 0 t.m_memory_bucket rfl]
  simp

/-! ### Counting entries, and invariants of reachable tables -/

theorem demo_table_run : run_calls new demo_calls = some demo_table := rfl

theorem demo_table_reachable : Reachable demo_table := ⟨demo_calls, rfl⟩

/-- Replacing one chain changes a sum over all buckets by the difference at
that bucket. -/
theorem sum_update_add (f : List (hash_map_node V) → Nat)
    (b : Fin c_max_hash_map_head_nodes → List (hash_map_node V))
    (i : Fin c_max_hash_map_head_nodes) (c : List (hash_map_node V)) :
    (∑ j, f (Function.update b i c j)) + f (b i) = (∑ j, f (b j)) + f c := by
  rw [← Finset.add_sum_erase Finset.univ (fun j => f (Function.update b i c j)) (Finset.mem_univ i),
      ← Finset.add_sum_erase Finset.univ (fun j => f (b j)) (Finset.mem_univ i)]
  have hrest : ∑ j ∈ Finset.univ.erase i, f (Function.update b i c j)
      = ∑ j ∈ Finset.univ.erase i, f (b j) := by
    apply Finset.sum_congr rfl
    intro j hj
    rw [Function.update_noteq (Finset.ne_of_mem_erase hj)]
  simp only [Function.update_same, hrest]
  omega

theorem entry_count_update (s s' : Nat)
    (b : Fin c_max_hash_map_head_nodes → List (hash_map_node V))
    (i : Fin c_max_hash_map_head_nodes) (c : List (hash_map_node V)) :
    entry_count { m_size := s', m_memory_bucket := Function.update b i c } + (b i).length
      = entry_count { m_size := s, m_memory_bucket := b } + c.length := by
  unfold entry_count
  exact sum_update_add (fun l => l.length) b i c

theorem key_count_update (s s' : Nat) (p_key : Int)
    (b : Fin c_max_hash_map_head_nodes → List (hash_map_node V))
    (i : Fin c_max_hash_map_head_nodes) (c : List (hash_map_node V)) :
    key_count { m_size := s', m_memory_bucket := Function.update b i c } p_key
        + (b i).countP (fun e => decide (e.key = p_key))
      = key_count { m_size := s, m_memory_bucket := b } p_key
        + c.countP (fun e => decide (e.key = p_key)) := by
  unfold key_count
  have h := sum_update_add (fun l => l.countP (fun e => decide (e.key = p_key))) b i c
  simp only at h ⊢
  exact h

theorem entry_count_new : entry_count (new : hash_map V) = 0 := by
  unfold entry_count
  apply Finset.sum_eq_zero
  intro i _
  rfl

theorem length_eraseP_of_any (p_key : Int) (chain : List (hash_map_node V))
    (h : chain.any (fun e => decide (e.key = p_key)) = true) :
    (chain.eraseP (fun e => decide (e.key = p_key))).length + 1 = chain.length := by
  obtain ⟨e, he, hp⟩ := List.any_eq_true.mp h
  have hlen := List.length_eraseP_of_mem (p := fun e => decide (e.key = p_key)) he hp
  have : 0 < chain.length := List.length_pos_of_mem he
  omega

theorem entry_count_pos_of_any (t : hash_map V) (p_key : Int) (i : Fin c_max_hash_map_head_nodes)
    (h : (t.m_memory_bucket i).any (fun e => decide (e.key = p_key)) = true) :
    0 < entry_count t := by
  obtain ⟨e, he, _⟩ := List.any_eq_true.mp h
  have hpos : 0 < (t.m_memory_bucket i).length := List.length_pos_of_mem he
  have hle : (t.m_memory_bucket i).length ≤ entry_count t :=
    Finset.single_le_sum (f := fun j => (t.m_memory_bucket j).length)
      (fun _ _ => Nat.zero_le _) (Finset.mem_univ i)
  omega

theorem run_calls_induction (P : hash_map V → Prop)
    (hstep : ∀ (t : hash_map V) (c : call V) (t' : hash_map V),
      P t → apply_call t c = some t' → P t') :
    ∀ (calls : List (call V)) (t t' : hash_map V),
      P t → run_calls t calls = some t' → P t' := by
  intro calls
  induction calls with
  | nil =>
    intro t t' hP hrun
    simp only [run_calls, Option.some.injEq] at hrun
    rw [← hrun]
    exact hP
  | cons c cs ih =>
    intro t t' hP hrun
    unfold run_calls at hrun
    cases hc : apply_call t c with
    | none => simp [hc] at hrun
    | some t1 =>
      simp only [hc] at hrun
      exact ih t1 t' (hstep t c t1 hP hc) hrun

/-- Induction over the calls that build a reachable table. -/
theorem reachable_induction (P : hash_map V → Prop) (hnew : P new)
    (hstep : ∀ (t : hash_map V) (c : call V) (t' : hash_map V),
      P t → apply_call t c = some t' → P t')
    (t : hash_map V) (h : Reachable t) : P t := by
  obtain ⟨calls, hrun⟩ := h
  exact run_calls_induction P hstep calls new t hnew hrun

theorem size_invariant_insert (t t' : hash_map V) (p_key : Int) (p_value : V)
    (hinv : t.m_size = entry_count t) (h : insert t p_key p_value = some t') :
    t'.m_size = entry_count t' := by
  by_cases hlt : hash_map.hash p_key < c_max_hash_map_head_nodes
  · rw [insert_of_lt t p_key p_value hlt] at h
    simp only [Option.some.injEq] at h
    rw [← h]
    have hu := entry_count_update t.m_size (t.m_size + 1) t.m_memory_bucket
      ⟨hash_map.hash p_key, hlt⟩
      (t.m_memory_bucket ⟨hash_map.hash p_key, hlt⟩ ++ [{ key := p_key, value := p_value }])
    have heta : entry_count { m_size := t.m_size, m_memory_bucket := t.m_memory_bucket }
        = entry_count t := rfl
    rw [heta, List.length_append, List.length_singleton] at hu
    simp only
    omega
  · rw [insert_of_not_lt t p_key p_value hlt] at h
    simp at h

theorem size_after_remove (t t' : hash_map V) (p_key : Int)
    (hinv : t.m_size = entry_count t) (h : remove t p_key = some t') :
    t'.m_size = entry_count t' ∧ (t'.m_size = t.m_size ∨ t'.m_size + 1 = t.m_size) := by
  by_cases hlt : hash_map.hash p_key < c_max_hash_map_head_nodes
  · rw [remove_of_lt t p_key hlt] at h
    simp only [Option.some.injEq] at h
    by_cases hany : (t.m_memory_bucket ⟨hash_map.hash p_key, hlt⟩).any
        (fun e => decide (e.key = p_key)) = true
    · rw [if_pos hany] at h
      rw [← h]
      have hu := entry_count_update t.m_size (size_t_decrement t.m_size) t.m_memory_bucket
        ⟨hash_map.hash p_key, hlt⟩
        ((t.m_memory_bucket ⟨hash_map.hash p_key, hlt⟩).eraseP (fun e => decide (e.key = p_key)))
      have heta : entry_count { m_size := t.m_size, m_memory_bucket := t.m_memory_bucket }
          = entry_count t := rfl
      rw [heta] at hu
      have hlen := length_eraseP_of_any p_key _ hany
      have hpos := entry_count_pos_of_any t p_key _ hany
      have hdec : size_t_decrement t.m_size = t.m_size - 1 := by
        unfold size_t_decrement
        rw [if_neg (by omega)]
      simp only
      refine ⟨by omega, Or.inr (by omega)⟩
    · rw [if_neg hany] at h
      rw [← h]
      exact ⟨hinv, Or.inl rfl⟩
  · rw [remove_of_not_lt t p_key hlt] at h
    simp at h

theorem size_invariant_clear (t : hash_map V) : (clear t).m_size = entry_count (clear t) := by
  rw [clear_eq_new, entry_count_new]
  rfl

theorem size_invariant_step (t : hash_map V) (c : call V) (t' : hash_map V)
    (hinv : t.m_size = entry_count t) (h : apply_call t c = some t') :
    t'.m_size = entry_count t' := by
  cases c with
  | insert k v => exact size_invariant_insert t t' k v hinv h
  | remove k => exact (size_after_remove t t' k hinv h).1
  | clear =>
    simp only [apply_call, Option.some.injEq] at h
    rw [← h]
    exact size_invariant_clear t

/-- In every reachable table `m_size` is the number of stored entries. -/
theorem size_invariant_reachable (t : hash_map V) (h : Reachable t) :
    t.m_size = entry_count t :=
  reachable_induction (fun t => t.m_size = entry_count t)
    (by show (new : hash_map V).m_size = entry_count new; rw [entry_count_new]; rfl)
    size_invariant_step t h

theorem demo_table_bucket_1 :
    demo_table.m_memory_bucket ⟨1, by decide⟩
      = [{ key := 1, value := 10 }, { key := 65536, value := 20 }, { key := 1, value := 30 }] :=
  rfl

theorem demo_table_bucket_2 : demo_table.m_memory_bucket ⟨2, by decide⟩ = [] := rfl

theorem demo_table_size : demo_table.m_size = 4 := rfl
theorem size_t_decrement_of_pos (n : Nat) (h : 0 < n) : size_t_decrement n + 1 = n := by
  unfold size_t_decrement
  rw [if_neg (by omega)]
  omega

theorem bucket_consistent_new : bucket_consistent (new : hash_map V) := by
  intro i e he
  simp [new] at he

theorem bucket_consistent_insert (t t' : hash_map V) (p_key : Int) (p_value : V)
    (hinv : bucket_consistent t) (h : insert t p_key p_value = some t') :
    bucket_consistent t' := by
  by_cases hlt : hash_map.hash p_key < c_max_hash_map_head_nodes
  · rw [insert_of_lt t p_key p_value hlt] at h
    simp only [Option.some.injEq] at h
    rw [← h]
    intro j e he
    by_cases hj : j = ⟨hash_map.hash p_key, hlt⟩
    · subst hj
      simp only [Function.update_same, List.mem_append, List.mem_singleton] at he
      rcases he with he | he
      · exact hinv _ e he
      · rw [he]
    · simp only [Function.update_noteq hj] at he
      exact hinv j e he
  · rw [insert_of_not_lt t p_key p_value hlt] at h
    simp at h

theorem bucket_consistent_remove (t t' : hash_map V) (p_key : Int)
    (hinv : bucket_consistent t) (h : remove t p_key = some t') :
    bucket_consistent t' := by
  by_cases hlt : hash_map.hash p_key < c_max_hash_map_head_nodes
  · rw [remove_of_lt t p_key hlt] at h
    simp only [Option.some.injEq] at h
    by_cases hany : (t.m_memory_bucket ⟨hash_map.hash p_key, hlt⟩).any
        (fun e => decide (e.key = p_key)) = true
    · rw [if_pos hany] at h
      rw [← h]
      intro j e he
      by_cases hj : j = ⟨hash_map.hash p_key, hlt⟩
      · subst hj
        simp only [Function.update_same] at he
        exact hinv _ e (List.mem_of_mem_eraseP he)
      · simp only [Function.update_noteq hj] at he
        exact hinv j e he
    · rw [if_neg hany] at h
      rw [← h]
      exact hinv
  · rw [remove_of_not_lt t p_key hlt] at h
    simp at h

theorem bucket_consistent_step (t : hash_map V) (c : call V) (t' : hash_map V)
    (hinv : bucket_consistent t) (h : apply_call t c = some t') : bucket_consistent t' := by
  cases c with
  | insert k v => exact bucket_consistent_insert t t' k v hinv h
  | remove k => exact bucket_consistent_remove t t' k hinv h
  | clear =>
    simp only [apply_call, Option.some.injEq] at h
    rw [← h, clear_eq_new]
    exact bucket_consistent_new

/-- In every reachable table each entry sits in the bucket of its key. -/
theorem bucket_consistent_reachable (t : hash_map V) (h : Reachable t) : bucket_consistent t :=
  reachable_induction bucket_consistent bucket_consistent_new bucket_consistent_step t h

theorem hash_lt_of_has_entry (t : hash_map V) (p_key : Int) (hinv : bucket_consistent t)
    (h : has_entry t p_key) : hash_map.hash p_key < c_max_hash_map_head_nodes := by
  obtain ⟨i, e, he, hk⟩ := h
  have := hinv i e he
  rw [hk] at this
  rw [this]
  exact i.isLt

theorem any_of_has_entry (t : hash_map V) (p_key : Int) (hinv : bucket_consistent t)
    (h : has_entry t p_key) (hlt : hash_map.hash p_key < c_max_hash_map_head_nodes) :
    (t.m_memory_bucket ⟨hash_map.hash p_key, hlt⟩).any (fun e => decide (e.key = p_key)) = true := by
  obtain ⟨i, e, he, hk⟩ := h
  have hi := hinv i e he
  rw [hk] at hi
  have hie : i = ⟨hash_map.hash p_key, hlt⟩ := Fin.ext hi.symm
  rw [← hie]
  exact List.any_eq_true.mpr ⟨e, he, by simp [hk]⟩

theorem new_has_no_entry (k : Int) : ¬ has_entry (new : hash_map V) k := by
  rintro ⟨i, e, he, _⟩
  simp [new] at he

theorem demo_table_no_entry_131071 : ¬ has_entry demo_table 131071 := by
  rintro ⟨i, e, he, hk⟩
  have hc := bucket_consistent_reachable demo_table demo_table_reachable i e he
  rw [hk] at hc
  have hi : i = ⟨1, by decide⟩ := Fin.ext hc.symm
  subst hi
  rw [demo_table_bucket_1] at he
  simp only [List.mem_cons, List.mem_singleton, List.not_mem_nil, or_false] at he
  rcases he with he | he | he <;> rw [he] at hk <;> simp at hk

theorem demo_table_no_entry_2 : ¬ has_entry demo_table 2 := by
  rintro ⟨i, e, he, hk⟩
  have hc := bucket_consistent_reachable demo_table demo_table_reachable i e he
  rw [hk] at hc
  have hi : i = ⟨2, by decide⟩ := Fin.ext hc.symm
  subst hi
  rw [demo_table_bucket_2] at he
  simp at he

theorem insert_mem_calls_lt (k : Int) (v : V) :
    ∀ (calls : List (call V)) (t t' : hash_map V),
      run_calls t calls = some t' → call.insert k v ∈ calls →
      hash_map.hash k < c_max_hash_map_head_nodes := by
  intro calls
  induction calls with
  | nil =>
    intro t t' _ hmem
    simp at hmem
  | cons c cs ih =>
    intro t t' hrun hmem
    unfold run_calls at hrun
    cases hc : apply_call t c with
    | none => simp [hc] at hrun
    | some t1 =>
      simp only [hc] at hrun
      rcases List.mem_cons.mp hmem with hhead | htail
      · by_contra hlt
        rw [← hhead] at hc
        simp only [apply_call] at hc
        rw [insert_of_not_lt t k v hlt] at hc
        simp at hc
      · exact ih t1 t' hrun htail

/-! ### The methods on in-range keys, and claims C3 and C6 to C9

Throughout, a key `k` is *in range* when `hash k < c_max_hash_map_head_nodes`,
that is when the slot that `get_head_node` refers to exists.  By `hash_lt_iff`
these are all keys except those with truncated remainder `-1` modulo `65535`;
in particular all non-negative keys (`hash_lt_of_nonneg`). -/

/-- For every table (in particular every table reachable from a newly
constructed one), every in-range key `k` that has no entry in the table, and
every value `v`: `insert(k, v)` succeeds and afterwards `get(k)` returns
exactly `v`. -/
theorem get_after_insert_absent (t : hash_map V) (k : Int) (v : V)
    (hk : hash_map.hash k < c_max_hash_map_head_nodes) (habs : ¬ has_entry t k) :
    ∃ t', insert t k v = some t' ∧ get t' k = some (some v) := by
  refine ⟨_, insert_of_lt t k v hk, ?_⟩
  rw [get_of_lt _ k hk]
  simp only [Function.update_same]
  have hb : ∀ x ∈ t.m_memory_bucket ⟨hash_map.hash k, hk⟩, x.key ≠ k :=
    fun x hx hxk => habs ⟨_, x, hx, hxk⟩
  rw [get_walk_first k _ { key := k, value := v } [] hb rfl]

/-- Example: key `131071` has no entry in `demo_table`; its bucket, slot
`1`, holds a chain of three entries with other keys. -/
theorem get_after_insert_absent_witness :
    hash_map.hash 131071 < c_max_hash_map_head_nodes ∧ ¬ has_entry demo_table 131071 ∧
    (∃ t', insert demo_table 131071 5 = some t' ∧ get t' 131071 = some (some 5)) :=
  ⟨by decide, demo_table_no_entry_131071,
    get_after_insert_absent demo_table 131071 5 (by decide) demo_table_no_entry_131071⟩

/-- For every table and in-range key `k`, `get(k)` returns the value of
the first entry, in chain order from the head, of bucket `hash(k)` whose key
equals `k`, and returns empty if and only if no entry of that chain has key
`k`. -/
theorem get_returns_first_match (t : hash_map V) (k : Int)
    (hk : hash_map.hash k < c_max_hash_map_head_nodes) :
    (∀ (before : List (hash_map_node V)) (e : hash_map_node V) (after : List (hash_map_node V)),
        t.m_memory_bucket ⟨hash_map.hash k, hk⟩ = before ++ e :: after →
        (∀ x ∈ before, x.key ≠ k) → e.key = k → get t k = some (some e.value)) ∧
    (get t k = some none ↔ ∀ e ∈ t.m_memory_bucket ⟨hash_map.hash k, hk⟩, e.key ≠ k) ∧
    get t k = some (((t.m_memory_bucket ⟨hash_map.hash k, hk⟩).find?
      (fun e => decide (e.key = k))).map (fun e => e.value)) := by
  refine ⟨?_, ?_, ?_⟩
  · intro before e after hchain hb he
    rw [get_of_lt t k hk, hchain, get_walk_first k before e after hb he]
  · rw [get_of_lt t k hk]
    simp only [Option.some.injEq]
    exact get_walk_eq_none_iff k _
  · rw [get_of_lt t k hk, get_walk_eq_find]

/-- Example: in `demo_table` bucket `1` holds the keys `1`, `65536`, `1`
in this order; `get(65536)` returns the value `20` of the second entry and
`get(1)` the value `10` of the first one, not the `30` of the third. -/
theorem get_returns_first_match_witness :
    hash_map.hash 65536 < c_max_hash_map_head_nodes ∧
    get demo_table 65536 = some (some 20) ∧ get demo_table 1 = some (some 10) :=
  ⟨by decide,
    (get_returns_first_match demo_table 65536 (by decide)).1
      [{ key := 1, value := 10 }] { key := 65536, value := 20 } [{ key := 1, value := 30 }]
      demo_table_bucket_1 (by simp) rfl,
    (get_returns_first_match demo_table 1 (by decide)).1
      [] { key := 1, value := 10 } [{ key := 65536, value := 20 }, { key := 1, value := 30 }]
      demo_table_bucket_1 (by simp) rfl⟩

/-- For every table and every in-range key `k` that has no entry in the
table, `remove(k)` is a no-op: it returns the table unchanged (every bucket
chain and the size counter), whether bucket `hash(k)` is empty or holds only
entries with other keys. -/
theorem remove_absent (t : hash_map V) (k : Int)
    (hk : hash_map.hash k < c_max_hash_map_head_nodes) (habs : ¬ has_entry t k) :
    remove t k = some t := by
  rw [remove_of_lt t k hk]
  have hany : ¬ (t.m_memory_bucket ⟨hash_map.hash k, hk⟩).any
      (fun e => decide (e.key = k)) = true := by
    intro h
    obtain ⟨e, he, hp⟩ := List.any_eq_true.mp h
    exact habs ⟨_, e, he, by simpa using hp⟩
  rw [if_neg hany]

/-- Example: in `demo_table` bucket `2` is empty and bucket `1`, the
bucket of key `131071`, holds only entries with other keys. -/
theorem remove_absent_witness :
    (hash_map.hash 2 < c_max_hash_map_head_nodes ∧ ¬ has_entry demo_table 2 ∧
      remove demo_table 2 = some demo_table) ∧
    (hash_map.hash 131071 < c_max_hash_map_head_nodes ∧ ¬ has_entry demo_table 131071 ∧
      remove demo_table 131071 = some demo_table) :=
  ⟨⟨by decide, demo_table_no_entry_2,
      remove_absent demo_table 2 (by decide) demo_table_no_entry_2⟩,
    ⟨by decide, demo_table_no_entry_131071,
      remove_absent demo_table 131071 (by decide) demo_table_no_entry_131071⟩⟩

/-- For every table state, after `clear()` every bucket slot is empty,
`size()` returns `0`, `get(k)` returns empty for every in-range key `k` and in
particular for every key inserted by the calls that built the table, and the
table equals a newly constructed one. -/
theorem clear_resets (t : hash_map V) :
    (∀ i, (clear t).m_memory_bucket i = []) ∧
    size (clear t) = 0 ∧
    (∀ k, hash_map.hash k < c_max_hash_map_head_nodes → get (clear t) k = some none) ∧
    (∀ (calls : List (call V)) (k : Int) (v : V),
        run_calls new calls = some t → call.insert k v ∈ calls →
        get (clear t) k = some none) ∧
    clear t = new := by
  have hget : ∀ k, hash_map.hash k < c_max_hash_map_head_nodes →
      get (clear t) k = some none := by
    intro k hk
    rw [clear_eq_new, get_of_lt _ k hk]
    rfl
  refine ⟨?_, ?_, hget, ?_, clear_eq_new t⟩
  · intro i
    rw [clear_eq_new]
    rfl
  · rw [clear_eq_new]
    rfl
  · intro calls k v hrun hmem
    exact hget k (insert_mem_calls_lt k v calls new t hrun hmem)

/-- Example: after `demo_table.clear()` the previously inserted key `1`
is gone. -/
theorem clear_resets_witness :
    hash_map.hash 1 < c_max_hash_map_head_nodes ∧
    run_calls new demo_calls = some demo_table ∧ call.insert 1 10 ∈ demo_calls ∧
    get (clear demo_table) 1 = some none ∧ size (clear demo_table) = 0 :=
  ⟨by decide, demo_table_run, by decide,
    (clear_resets demo_table).2.2.2.1 demo_calls 1 10 demo_table_run (by decide),
    (clear_resets demo_table).2.1⟩

/-- C7 fails on the code at key `-1` (a key of every signed key type):
`-1 % 65535` is `-1`, which the conversion to `unsigned short` turns into
`65535`, the number of slots itself, so `get_head_node` indexes one past the
end of the array and `insert`, `get` and `remove` have no defined result. -/
theorem hash_minus_one_out_of_bounds :
    hash_map.hash (-1) = 65535 ∧
    ¬ hash_map.hash (-1) < c_max_hash_map_head_nodes ∧
    get_head_node (-1) = none ∧
    insert (new : hash_map Nat) (-1) 0 = none ∧
    get (new : hash_map Nat) (-1) = none ∧
    remove (new : hash_map Nat) (-1) = none :=
  ⟨by decide, by decide, by decide, rfl, rfl, rfl⟩

/-- C8 fails on the code for negative keys, by the defect of C7: `hash(-1)` is
`65535` and `hash(-2)` is `65534`, while `-1` and `-2` modulo `65535` are
`65534` and `65533` (and their truncated remainders are `-1` and `-2`). -/
theorem hash_negative_key_not_mod :
    (hash_map.hash (-1) = 65535 ∧
      (hash_map.hash (-1) : Int) ≠ (-1) % (c_max_hash_map_head_nodes : Int) ∧
      (hash_map.hash (-1) : Int) ≠ Int.tmod (-1) (c_max_hash_map_head_nodes : Int)) ∧
    (hash_map.hash (-2) = 65534 ∧
      (hash_map.hash (-2) : Int) ≠ (-2) % (c_max_hash_map_head_nodes : Int) ∧
      (hash_map.hash (-2) : Int) ≠ Int.tmod (-2) (c_max_hash_map_head_nodes : Int)) :=
  ⟨⟨by decide, by decide, by decide⟩, ⟨by decide, by decide, by decide⟩⟩

/-- C9 as stated fails: the bucket array of a newly constructed table has
`65535` slots, not `65536`; there is no slot with index `65535`. -/
theorem bucket_array_not_65536_slots :
    slot_count (new : hash_map Nat).m_memory_bucket ≠ 65536 ∧
    c_max_hash_map_head_nodes ≠ 65536 ∧
    ¬ (65535 < slot_count (new : hash_map Nat).m_memory_bucket) :=
  ⟨by decide, by decide, by decide⟩

/-- C9, amended: the bucket array allocated at construction has `65535` slots
(`2 ^ 16 - 1`, the largest value of the 16-bit unsigned index type), and this
number is the same after every `insert`, `remove` and `clear` call. -/
theorem bucket_array_slots :
    slot_count (new : hash_map V).m_memory_bucket = 65535 ∧
    (65535 : Nat) = 2 ^ 16 - 1 ∧
    (∀ (t : hash_map V) (c : call V) (t' : hash_map V), apply_call t c = some t' →
      slot_count t'.m_memory_bucket = slot_count t.m_memory_bucket) ∧
    (∀ t : hash_map V, Reachable t → slot_count t.m_memory_bucket = 65535) :=
  ⟨rfl, rfl, fun _ _ _ _ => rfl, fun _ _ => rfl⟩

/-- Witness of C9 (amended): the reachable `demo_table`. -/
theorem bucket_array_slots_witness :
    Reachable demo_table ∧ slot_count demo_table.m_memory_bucket = 65535 :=
  ⟨demo_table_reachable, bucket_array_slots.2.2.2 demo_table demo_table_reachable⟩

/-- For every table state, in-range key `k` and value `v`, `insert(k, v)`
succeeds and increases `size()` by exactly `1`, whether or not an entry with
key `k` is already present and whether or not bucket `hash(k)` was empty. -/
theorem insert_increments_size (t : hash_map V) (k : Int) (v : V)
    (hk : hash_map.hash k < c_max_hash_map_head_nodes) :
    ∃ t', insert t k v = some t' ∧ size t' = size t + 1 :=
  ⟨_, insert_of_lt t k v hk, rfl⟩

/-- Example: in `demo_table` key `1` is already present (twice), and
key `2` is absent with an empty bucket. -/
theorem insert_increments_size_witness :
    (hash_map.hash 1 < c_max_hash_map_head_nodes ∧
      ∃ t', insert demo_table 1 99 = some t' ∧ size t' = size demo_table + 1) ∧
    (hash_map.hash 2 < c_max_hash_map_head_nodes ∧
      ∃ t', insert demo_table 2 99 = some t' ∧ size t' = size demo_table + 1) :=
  ⟨⟨by decide, insert_increments_size demo_table 1 99 (by decide)⟩,
    ⟨by decide, insert_increments_size demo_table 2 99 (by decide)⟩⟩

/-! ### Chains: lookup and erasure -/

theorem get_walk_append_of_absent (p_key : Int) (c d : List (hash_map_node V))
    (h : ∀ x ∈ c, x.key ≠ p_key) : get_walk p_key (c ++ d) = get_walk p_key d := by
  induction c with
  | nil => rfl
  | cons a rest ih =>
    have ha : a.key ≠ p_key := h a (List.mem_cons_self _ _)
    have hr : ∀ x ∈ rest, x.key ≠ p_key := fun x hx => h x (List.mem_cons_of_mem _ hx)
    simp [get_walk, ha, ih hr]

theorem get_walk_append_right_absent (p_key : Int) (c d : List (hash_map_node V))
    (h : ∀ x ∈ d, x.key ≠ p_key) : get_walk p_key (c ++ d) = get_walk p_key c := by
  induction c with
  | nil =>
    rw [List.nil_append]
    exact (get_walk_eq_none_iff p_key d).mpr h
  | cons a rest ih =>
    by_cases ha : a.key = p_key
    · simp [get_walk, ha]
    · simp [get_walk, ha, ih]

theorem get_walk_eraseP_of_ne (p_key other : Int) (c : List (hash_map_node V))
    (hne : other ≠ p_key) :
    get_walk other (c.eraseP (fun e => decide (e.key = p_key))) = get_walk other c := by
  induction c with
  | nil => rfl
  | cons a rest ih =>
    by_cases ha : a.key = p_key
    · have hao : a.key ≠ other := fun h => hne (h.symm.trans ha)
      have hp : (fun e : hash_map_node V => decide (e.key = p_key)) a = true := by simp [ha]
      rw [List.eraseP_cons_of_pos (p := fun e : hash_map_node V => decide (e.key = p_key)) (a := a) (l := rest) hp]
      simp only [get_walk, if_neg hao]
    · have hp : ¬ (fun e : hash_map_node V => decide (e.key = p_key)) a = true := by simp [ha]
      rw [List.eraseP_cons_of_neg (p := fun e : hash_map_node V => decide (e.key = p_key)) (a := a) (l := rest) hp]
      by_cases hao : a.key = other
      · simp only [get_walk, if_pos hao]
      · simp only [get_walk, if_neg hao, ih]

theorem eraseP_append_of_absent (p_key : Int) (c d : List (hash_map_node V))
    (h : ∀ x ∈ c, x.key ≠ p_key) :
    (c ++ d).eraseP (fun e => decide (e.key = p_key))
      = c ++ d.eraseP (fun e => decide (e.key = p_key)) := by
  induction c with
  | nil => rfl
  | cons a rest ih =>
    have ha : a.key ≠ p_key := h a (List.mem_cons_self _ _)
    have hr : ∀ x ∈ rest, x.key ≠ p_key := fun x hx => h x (List.mem_cons_of_mem _ hx)
    simp [List.eraseP_cons, ha, ih hr]

theorem eraseP_first_match (p_key : Int) (before : List (hash_map_node V))
    (e : hash_map_node V) (after : List (hash_map_node V))
    (hb : ∀ x ∈ before, x.key ≠ p_key) (he : e.key = p_key) :
    (before ++ e :: after).eraseP (fun e => decide (e.key = p_key)) = before ++ after := by
  rw [eraseP_append_of_absent p_key before (e :: after) hb]
  simp [List.eraseP_cons, he]

theorem any_of_mem_key (p_key : Int) (c : List (hash_map_node V)) (e : hash_map_node V)
    (hmem : e ∈ c) (he : e.key = p_key) :
    c.any (fun e => decide (e.key = p_key)) = true :=
  List.any_eq_true.mpr ⟨e, hmem, by simp [he]⟩

theorem any_eq_false_of_absent (p_key : Int) (c : List (hash_map_node V))
    (h : ∀ x ∈ c, x.key ≠ p_key) :
    ¬ c.any (fun e => decide (e.key = p_key)) = true := by
  intro hany
  obtain ⟨e, he, hp⟩ := List.any_eq_true.mp hany
  exact h e he (by simpa using hp)

/-! ### Effect of one call on the chains -/

/-- On an in-range key `insert` succeeds; the result has one more entry at the
end of the chain of bucket `hash(p_key)`, the other chains are unchanged and
`m_size` is one larger. -/
theorem insert_spec (t : hash_map V) (p_key : Int) (p_value : V)
    (h : hash_map.hash p_key < c_max_hash_map_head_nodes) :
    ∃ t', insert t p_key p_value = some t' ∧
      t'.m_memory_bucket ⟨hash_map.hash p_key, h⟩
        = t.m_memory_bucket ⟨hash_map.hash p_key, h⟩ ++ [{ key := p_key, value := p_value }] ∧
      (∀ j, j ≠ (⟨hash_map.hash p_key, h⟩ : Fin c_max_hash_map_head_nodes) →
        t'.m_memory_bucket j = t.m_memory_bucket j) ∧
      t'.m_size = t.m_size + 1 := by
  refine ⟨_, insert_of_lt t p_key p_value h, ?_, ?_, rfl⟩
  · simp only [Function.update_same]
  · intro j hj
    simp only [Function.update_noteq hj]

/-- On an in-range key whose chain holds the key, `remove` succeeds; the chain
of bucket `hash(p_key)` loses its first entry with the key, the other chains
are unchanged and `m_size` is decremented. -/
theorem remove_spec_present (t : hash_map V) (p_key : Int)
    (h : hash_map.hash p_key < c_max_hash_map_head_nodes)
    (hany : (t.m_memory_bucket ⟨hash_map.hash p_key, h⟩).any
      (fun e => decide (e.key = p_key)) = true) :
    ∃ t', remove t p_key = some t' ∧
      t'.m_memory_bucket ⟨hash_map.hash p_key, h⟩
        = (t.m_memory_bucket ⟨hash_map.hash p_key, h⟩).eraseP
            (fun e => decide (e.key = p_key)) ∧
      (∀ j, j ≠ (⟨hash_map.hash p_key, h⟩ : Fin c_max_hash_map_head_nodes) →
        t'.m_memory_bucket j = t.m_memory_bucket j) ∧
      t'.m_size = size_t_decrement t.m_size := by
  refine ⟨_, remove_of_lt t p_key h, ?_, ?_, ?_⟩
  · rw [if_pos hany]
    simp only [Function.update_same]
  · intro j hj
    rw [if_pos hany]
    simp only [Function.update_noteq hj]
  · rw [if_pos hany]

/-- Lookup of a key looks only at the chain of its bucket. -/
theorem get_congr_bucket (t t' : hash_map V) (p_key : Int)
    (h : ∀ hlt : hash_map.hash p_key < c_max_hash_map_head_nodes,
      get_walk p_key (t'.m_memory_bucket ⟨hash_map.hash p_key, hlt⟩)
        = get_walk p_key (t.m_memory_bucket ⟨hash_map.hash p_key, hlt⟩)) :
    get t' p_key = get t p_key := by
  by_cases hlt : hash_map.hash p_key < c_max_hash_map_head_nodes
  · rw [get_of_lt t' p_key hlt, get_of_lt t p_key hlt, h hlt]
  · rw [get_of_not_lt t' p_key hlt, get_of_not_lt t p_key hlt]

/-- An `insert` of key `p_key` does not change the result of `get` for another
key. -/
theorem get_insert_of_ne (t t' : hash_map V) (p_key other : Int) (p_value : V)
    (hne : other ≠ p_key) (h : insert t p_key p_value = some t') :
    get t' other = get t other := by
  by_cases hlt : hash_map.hash p_key < c_max_hash_map_head_nodes
  · obtain ⟨t1, h1, hsame, hother, _⟩ := insert_spec t p_key p_value hlt
    rw [h1] at h
    simp only [Option.some.injEq] at h
    subst h
    apply get_congr_bucket
    intro ho
    by_cases hj : (⟨hash_map.hash other, ho⟩ : Fin c_max_hash_map_head_nodes)
        = ⟨hash_map.hash p_key, hlt⟩
    · rw [hj, hsame]
      apply get_walk_append_right_absent
      intro x hx
      simp only [List.mem_singleton] at hx
      rw [hx]
      exact fun hk => hne hk.symm
    · rw [hother _ hj]
  · rw [insert_of_not_lt t p_key p_value hlt] at h
    simp at h

/-- A `remove` of key `p_key` does not change the result of `get` for another
key. -/
theorem get_remove_of_ne (t t' : hash_map V) (p_key other : Int)
    (hne : other ≠ p_key) (h : remove t p_key = some t') :
    get t' other = get t other := by
  by_cases hlt : hash_map.hash p_key < c_max_hash_map_head_nodes
  · by_cases hany : (t.m_memory_bucket ⟨hash_map.hash p_key, hlt⟩).any
        (fun e => decide (e.key = p_key)) = true
    · obtain ⟨t1, h1, hsame, hother, _⟩ := remove_spec_present t p_key hlt hany
      rw [h1] at h
      simp only [Option.some.injEq] at h
      subst h
      apply get_congr_bucket
      intro ho
      by_cases hj : (⟨hash_map.hash other, ho⟩ : Fin c_max_hash_map_head_nodes)
          = ⟨hash_map.hash p_key, hlt⟩
      · rw [hj, hsame]
        exact get_walk_eraseP_of_ne p_key other _ hne
      · rw [hother _ hj]
    · rw [remove_of_lt t p_key hlt, if_neg hany] at h
      simp only [Option.some.injEq] at h
      rw [← h]
  · rw [remove_of_not_lt t p_key hlt] at h
    simp at h

/-! ### The values stored under one key -/

theorem values_of_of_lt (t : hash_map V) (p_key : Int)
    (h : hash_map.hash p_key < c_max_hash_map_head_nodes) :
    values_of t p_key =
      ((t.m_memory_bucket ⟨hash_map.hash p_key, h⟩).filter
        (fun e => decide (e.key = p_key))).map (fun e => e.value) := by
  unfold values_of
  rw [get_head_node_of_lt p_key h]

theorem get_walk_eq_head (p_key : Int) (c : List (hash_map_node V)) :
    get_walk p_key c
      = ((c.filter (fun e => decide (e.key = p_key))).map (fun e => e.value)).head? := by
  induction c with
  | nil => rfl
  | cons a rest ih =>
    by_cases ha : a.key = p_key
    · simp [get_walk, ha, List.filter_cons]
    · simp [get_walk, ha, List.filter_cons, ih]

/-- On an in-range key `get` returns the oldest value stored under the key. -/
theorem get_eq_head_values (t : hash_map V) (p_key : Int)
    (h : hash_map.hash p_key < c_max_hash_map_head_nodes) :
    get t p_key = some (values_of t p_key).head? := by
  rw [get_of_lt t p_key h, values_of_of_lt t p_key h, get_walk_eq_head]

theorem values_of_absent (t : hash_map V) (p_key : Int) (h : ¬ has_entry t p_key) :
    values_of t p_key = [] := by
  by_cases hlt : hash_map.hash p_key < c_max_hash_map_head_nodes
  · rw [values_of_of_lt t p_key hlt]
    have hf : (t.m_memory_bucket ⟨hash_map.hash p_key, hlt⟩).filter
        (fun e => decide (e.key = p_key)) = [] := by
      rw [List.filter_eq_nil_iff]
      intro e he hp
      exact h ⟨_, e, he, by simpa using hp⟩
    rw [hf]
    rfl
  · unfold values_of
    rw [get_head_node_of_not_lt p_key hlt]

theorem filter_eraseP_self (p_key : Int) (c : List (hash_map_node V)) :
    (c.eraseP (fun e => decide (e.key = p_key))).filter (fun e => decide (e.key = p_key))
      = (c.filter (fun e => decide (e.key = p_key))).tail := by
  induction c with
  | nil => rfl
  | cons a rest ih =>
    by_cases ha : a.key = p_key
    · have hp : (fun e : hash_map_node V => decide (e.key = p_key)) a = true := by simp [ha]
      rw [List.eraseP_cons_of_pos (p := fun e : hash_map_node V => decide (e.key = p_key))
        (a := a) (l := rest) hp, List.filter_cons]
      simp [ha]
    · have hp : ¬ (fun e : hash_map_node V => decide (e.key = p_key)) a = true := by simp [ha]
      rw [List.eraseP_cons_of_neg (p := fun e : hash_map_node V => decide (e.key = p_key))
        (a := a) (l := rest) hp, List.filter_cons, List.filter_cons]
      simp [ha, ih]

theorem filter_eraseP_of_ne (p_key other : Int) (c : List (hash_map_node V))
    (hne : other ≠ p_key) :
    (c.eraseP (fun e => decide (e.key = p_key))).filter (fun e => decide (e.key = other))
      = c.filter (fun e => decide (e.key = other)) := by
  induction c with
  | nil => rfl
  | cons a rest ih =>
    by_cases ha : a.key = p_key
    · have hp : (fun e : hash_map_node V => decide (e.key = p_key)) a = true := by simp [ha]
      have hq : ¬ (fun e : hash_map_node V => decide (e.key = other)) a = true := by
        simp only [decide_eq_true_eq]
        exact fun h => hne (h.symm.trans ha)
      rw [List.eraseP_cons_of_pos (p := fun e : hash_map_node V => decide (e.key = p_key))
        (a := a) (l := rest) hp, List.filter_cons]
      simp only [hq, if_false]
      rfl
    · have hp : ¬ (fun e : hash_map_node V => decide (e.key = p_key)) a = true := by simp [ha]
      rw [List.eraseP_cons_of_neg (p := fun e : hash_map_node V => decide (e.key = p_key))
        (a := a) (l := rest) hp, List.filter_cons, List.filter_cons, ih]

/-- An `insert` of key `p_key` adds its value after the values already stored
under `p_key`. -/
theorem values_insert_self (t t' : hash_map V) (p_key : Int) (p_value : V)
    (h : insert t p_key p_value = some t') :
    values_of t' p_key = values_of t p_key ++ [p_value] := by
  by_cases hlt : hash_map.hash p_key < c_max_hash_map_head_nodes
  · obtain ⟨t1, h1, hsame, _, _⟩ := insert_spec t p_key p_value hlt
    rw [h1] at h
    simp only [Option.some.injEq] at h
    subst h
    rw [values_of_of_lt _ p_key hlt, values_of_of_lt _ p_key hlt, hsame]
    simp [List.filter_append, List.filter_cons]
  · rw [insert_of_not_lt t p_key p_value hlt] at h
    simp at h

/-- An `insert` of key `p_key` leaves the values stored under another key
alone. -/
theorem values_insert_of_ne (t t' : hash_map V) (p_key other : Int) (p_value : V)
    (hne : other ≠ p_key) (h : insert t p_key p_value = some t') :
    values_of t' other = values_of t other := by
  by_cases hlt : hash_map.hash p_key < c_max_hash_map_head_nodes
  · obtain ⟨t1, h1, hsame, hother, _⟩ := insert_spec t p_key p_value hlt
    rw [h1] at h
    simp only [Option.some.injEq] at h
    subst h
    by_cases ho : hash_map.hash other < c_max_hash_map_head_nodes
    · rw [values_of_of_lt _ other ho, values_of_of_lt _ other ho]
      by_cases hj : (⟨hash_map.hash other, ho⟩ : Fin c_max_hash_map_head_nodes)
          = ⟨hash_map.hash p_key, hlt⟩
      · rw [hj, hsame]
        have hq : ¬ p_key = other := fun hk => hne hk.symm
        simp [List.filter_append, List.filter_cons, hq]
      · rw [hother _ hj]
    · unfold values_of
      rw [get_head_node_of_not_lt other ho]
  · rw [insert_of_not_lt t p_key p_value hlt] at h
    simp at h

/-- A `remove` of key `p_key` drops the oldest value stored under `p_key`. -/
theorem values_remove_self (t t' : hash_map V) (p_key : Int)
    (h : remove t p_key = some t') :
    values_of t' p_key = (values_of t p_key).tail := by
  by_cases hlt : hash_map.hash p_key < c_max_hash_map_head_nodes
  · by_cases hany : (t.m_memory_bucket ⟨hash_map.hash p_key, hlt⟩).any
        (fun e => decide (e.key = p_key)) = true
    · obtain ⟨t1, h1, hsame, _, _⟩ := remove_spec_present t p_key hlt hany
      rw [h1] at h
      simp only [Option.some.injEq] at h
      subst h
      rw [values_of_of_lt _ p_key hlt, values_of_of_lt _ p_key hlt, hsame,
        filter_eraseP_self, List.map_tail]
    · rw [remove_of_lt t p_key hlt, if_neg hany] at h
      simp only [Option.some.injEq] at h
      subst h
      rw [values_of_of_lt _ p_key hlt]
      have hf : (t.m_memory_bucket ⟨hash_map.hash p_key, hlt⟩).filter
          (fun e => decide (e.key = p_key)) = [] := by
        rw [List.filter_eq_nil_iff]
        intro e he hp
        exact hany (List.any_eq_true.mpr ⟨e, he, hp⟩)
      rw [hf]
      rfl
  · rw [remove_of_not_lt t p_key hlt] at h
    simp at h

/-- A `remove` of key `p_key` leaves the values stored under another key
alone. -/
theorem values_remove_of_ne (t t' : hash_map V) (p_key other : Int)
    (hne : other ≠ p_key) (h : remove t p_key = some t') :
    values_of t' other = values_of t other := by
  by_cases hlt : hash_map.hash p_key < c_max_hash_map_head_nodes
  · by_cases hany : (t.m_memory_bucket ⟨hash_map.hash p_key, hlt⟩).any
        (fun e => decide (e.key = p_key)) = true
    · obtain ⟨t1, h1, hsame, hother, _⟩ := remove_spec_present t p_key hlt hany
      rw [h1] at h
      simp only [Option.some.injEq] at h
      subst h
      by_cases ho : hash_map.hash other < c_max_hash_map_head_nodes
      · rw [values_of_of_lt _ other ho, values_of_of_lt _ other ho]
        by_cases hj : (⟨hash_map.hash other, ho⟩ : Fin c_max_hash_map_head_nodes)
            = ⟨hash_map.hash p_key, hlt⟩
        · rw [hj, hsame, filter_eraseP_of_ne p_key other _ hne]
        · rw [hother _ hj]
      · unfold values_of
        rw [get_head_node_of_not_lt other ho]
    · rw [remove_of_lt t p_key hlt, if_neg hany] at h
      simp only [Option.some.injEq] at h
      rw [← h]
  · rw [remove_of_not_lt t p_key hlt] at h
    simp at h

/-- On an in-range key `remove` always returns. -/
theorem remove_returns (t : hash_map V) (p_key : Int)
    (h : hash_map.hash p_key < c_max_hash_map_head_nodes) :
    ∃ t', remove t p_key = some t' :=
  ⟨_, remove_of_lt t p_key h⟩

/-- On an in-range key `insert` always returns. -/
theorem insert_returns (t : hash_map V) (p_key : Int) (p_value : V)
    (h : hash_map.hash p_key < c_max_hash_map_head_nodes) :
    ∃ t', insert t p_key p_value = some t' :=
  ⟨_, insert_of_lt t p_key p_value h⟩

/-- A sequence of `insert` calls with in-range keys runs to the end and adds
one to `m_size` per call. -/
theorem run_insert_calls_size (entries : List (Int × V)) :
    ∀ t : hash_map V,
      (∀ p ∈ entries, hash_map.hash p.1 < c_max_hash_map_head_nodes) →
      ∃ t', run_calls t (insert_calls entries) = some t' ∧
        t'.m_size = t.m_size + entries.length := by
  induction entries with
  | nil =>
    intro t _
    exact ⟨t, rfl, rfl⟩
  | cons p rest ih =>
    intro t hr
    have hp : hash_map.hash p.1 < c_max_hash_map_head_nodes := hr p (List.mem_cons_self _ _)
    obtain ⟨t1, h1, _, _, hs1⟩ := insert_spec t p.1 p.2 hp
    obtain ⟨t2, h2, hs2⟩ := ih t1 (fun q hq => hr q (List.mem_cons_of_mem _ hq))
    refine ⟨t2, ?_, ?_⟩
    · show run_calls t (call.insert p.1 p.2 :: insert_calls rest) = some t2
      unfold run_calls
      simp only [apply_call, h1]
      exact h2
    · rw [hs2, hs1, List.length_cons]
      omega

theorem exists_first_match (p_key : Int) (c : List (hash_map_node V))
    (h : ∃ e ∈ c, e.key = p_key) :
    ∃ (before : List (hash_map_node V)) (e : hash_map_node V) (after : List (hash_map_node V)),
      c = before ++ e :: after ∧ (∀ x ∈ before, x.key ≠ p_key) ∧ e.key = p_key := by
  induction c with
  | nil =>
    obtain ⟨e, he, _⟩ := h
    simp at he
  | cons a rest ih =>
    by_cases ha : a.key = p_key
    · exact ⟨[], a, rest, rfl, by simp, ha⟩
    · have hrest : ∃ e ∈ rest, e.key = p_key := by
        obtain ⟨e, he, hk⟩ := h
        rcases List.mem_cons.mp he with hea | her
        · exact absurd (hea ▸ hk) ha
        · exact ⟨e, her, hk⟩
      obtain ⟨before, e, after, hc, hb, he⟩ := ih hrest
      refine ⟨a :: before, e, after, by rw [hc]; rfl, ?_, he⟩
      intro x hx
      rcases List.mem_cons.mp hx with hxa | hxb
      · rw [hxa]
        exact ha
      · exact hb x hxb

theorem size_t_decrement_succ (n : Nat) : size_t_decrement (n + 1) = n := by
  unfold size_t_decrement
  rw [if_neg (by omega)]
  omega

theorem driver_entries_in_range :
    ∀ p ∈ driver_entries, hash_map.hash p.1 < c_max_hash_map_head_nodes := by
  decide

/-! ### The run of the loop of `clear` -/

theorem clear_loop_trace_eq (n : Nat) :
    ∀ (bucket_index : Nat) (b : Fin c_max_hash_map_head_nodes → List (hash_map_node V))
      (visited : List Nat),
      c_max_hash_map_head_nodes - bucket_index = n →
      bucket_index ≤ c_max_hash_map_head_nodes →
      clear_loop_trace bucket_index b visited =
        (c_max_hash_map_head_nodes,
         visited ++ List.range' bucket_index (c_max_hash_map_head_nodes - bucket_index),
         clear_loop bucket_index b) := by
  induction n with
  | zero =>
    intro i b visited hn hle
    have hi : ¬ i < c_max_hash_map_head_nodes := by omega
    have hie : i = c_max_hash_map_head_nodes := by omega
    rw [clear_loop_trace, clear_loop]
    simp only [hi, dite_false]
    rw [hn, hie]
    simp
  | succ n ih =>
    intro i b visited hn hle
    have hi : i < c_max_hash_map_head_nodes := by omega
    have hlt : i + 1 < 2 ^ 16 := by
      have := c_max_eq
      omega
    rw [clear_loop_trace, clear_loop]
    simp only [hi, dite_true]
    rw [Nat.mod_eq_of_lt hlt, ih (i + 1) _ _ (by omega) (by omega)]
    have hsub : c_max_hash_map_head_nodes - i = (c_max_hash_map_head_nodes - (i + 1)) + 1 := by
      omega
    rw [hsub, List.range'_succ, List.append_assoc]
    rfl

/-! ### Refinement of the association list -/

theorem get_walk_eq_assoc_get (k : Int) (c : List (hash_map_node V)) :
    get_walk k c = assoc_get (c.map pair_of) k := by
  induction c with
  | nil => rfl
  | cons a rest ih =>
    by_cases ha : a.key = k
    · simp [get_walk, assoc_get, pair_of, ha]
    · simp only [get_walk, if_neg ha, ih]
      simp [assoc_get, pair_of, ha]

theorem assoc_get_filter (k : Int) (i : Nat) (hi : hash_map.hash k = i) (l : List (Int × V)) :
    assoc_get (l.filter (fun p => decide (hash_map.hash p.1 = i))) k = assoc_get l k := by
  induction l with
  | nil => rfl
  | cons a rest ih =>
    unfold assoc_get at ih ⊢
    by_cases ha : a.1 = k
    · have hq : hash_map.hash a.1 = i := by rw [ha, hi]
      simp [List.filter_cons, hq, ha, hi]
    · by_cases hq : hash_map.hash a.1 = i
      · simp only [List.filter_cons, hq, decide_True, if_true, List.find?_cons, ha,
          decide_False]
        exact ih
      · simp only [List.filter_cons, hq, decide_False, List.find?_cons, ha]
        simpa using ih

theorem map_eraseP_pair (k : Int) (c : List (hash_map_node V)) :
    (c.eraseP (fun e => decide (e.key = k))).map pair_of
      = (c.map pair_of).eraseP (fun p => decide (p.1 = k)) := by
  induction c with
  | nil => rfl
  | cons a rest ih =>
    by_cases ha : a.key = k
    · simp [List.eraseP_cons, pair_of, ha]
    · simp only [List.eraseP_cons, List.map_cons, pair_of, ha, decide_False, cond_false]
      rw [← ih]

theorem any_map_pair (k : Int) (c : List (hash_map_node V)) :
    (c.map pair_of).any (fun p => decide (p.1 = k)) = c.any (fun e => decide (e.key = k)) := by
  induction c with
  | nil => rfl
  | cons a rest ih => simp [pair_of, ih]

theorem any_filter_bucket (k : Int) (i : Nat) (hi : hash_map.hash k = i) (l : List (Int × V)) :
    (l.filter (fun p => decide (hash_map.hash p.1 = i))).any (fun p => decide (p.1 = k))
      = l.any (fun p => decide (p.1 = k)) := by
  induction l with
  | nil => rfl
  | cons a rest ih =>
    by_cases ha : a.1 = k
    · have hq : hash_map.hash a.1 = i := by rw [ha, hi]
      simp [List.filter_cons, hq, ha, hi]
    · by_cases hq : hash_map.hash a.1 = i
      · simp [List.filter_cons, hq, ha, ih]
      · simp [List.filter_cons, hq, ha, ih]

theorem filter_eraseP_same_bucket (k : Int) (i : Nat) (hi : hash_map.hash k = i)
    (l : List (Int × V)) :
    (l.eraseP (fun p => decide (p.1 = k))).filter (fun p => decide (hash_map.hash p.1 = i))
      = (l.filter (fun p => decide (hash_map.hash p.1 = i))).eraseP
          (fun p => decide (p.1 = k)) := by
  induction l with
  | nil => rfl
  | cons a rest ih =>
    by_cases ha : a.1 = k
    · have hq : hash_map.hash a.1 = i := by rw [ha, hi]
      simp [List.eraseP_cons, List.filter_cons, hq, ha, hi]
    · by_cases hq : hash_map.hash a.1 = i
      · simp [List.eraseP_cons, List.filter_cons, hq, ha, ih]
      · simp [List.eraseP_cons, List.filter_cons, hq, ha, ih]

theorem filter_eraseP_other_bucket (k : Int) (i : Nat) (hi : hash_map.hash k ≠ i)
    (l : List (Int × V)) :
    (l.eraseP (fun p => decide (p.1 = k))).filter (fun p => decide (hash_map.hash p.1 = i))
      = l.filter (fun p => decide (hash_map.hash p.1 = i)) := by
  induction l with
  | nil => rfl
  | cons a rest ih =>
    by_cases ha : a.1 = k
    · have hq : ¬ hash_map.hash a.1 = i := by rw [ha]; exact hi
      simp [List.eraseP_cons, List.filter_cons, hq, ha, hi]
    · by_cases hq : hash_map.hash a.1 = i
      · simp [List.eraseP_cons, List.filter_cons, hq, ha, ih]
      · simp [List.eraseP_cons, List.filter_cons, hq, ha, ih]

theorem refines_new : refines (new : hash_map V) [] :=
  ⟨rfl, fun _ => rfl⟩

theorem refines_insert (t t' : hash_map V) (l : List (Int × V)) (k : Int) (v : V)
    (hr : refines t l) (h : insert t k v = some t') : refines t' (assoc_insert l k v) := by
  by_cases hlt : hash_map.hash k < c_max_hash_map_head_nodes
  · obtain ⟨t1, h1, hsame, hother, hs⟩ := insert_spec t k v hlt
    rw [h1] at h
    simp only [Option.some.injEq] at h
    subst h
    refine ⟨?_, ?_⟩
    · rw [hs, hr.1]
      simp [assoc_insert]
    · intro i
      by_cases hi : i = ⟨hash_map.hash k, hlt⟩
      · subst hi
        rw [hsame, List.map_append, hr.2]
        simp [assoc_insert, List.filter_append, List.filter_cons, pair_of]
      · rw [hother i hi, hr.2 i]
        have hne : ¬ hash_map.hash k = i.val := fun hk => hi (Fin.ext hk.symm)
        simp [assoc_insert, List.filter_append, List.filter_cons, hne]
  · rw [insert_of_not_lt t k v hlt] at h
    simp at h

theorem refines_remove (t t' : hash_map V) (l : List (Int × V)) (k : Int)
    (hr : refines t l) (h : remove t k = some t') : refines t' (assoc_remove l k) := by
  by_cases hlt : hash_map.hash k < c_max_hash_map_head_nodes
  · have hanyeq : (t.m_memory_bucket ⟨hash_map.hash k, hlt⟩).any (fun e => decide (e.key = k))
        = l.any (fun p => decide (p.1 = k)) := by
      rw [← any_map_pair, hr.2, any_filter_bucket k _ rfl]
    by_cases hany : (t.m_memory_bucket ⟨hash_map.hash k, hlt⟩).any
        (fun e => decide (e.key = k)) = true
    · obtain ⟨t1, h1, hsame, hother, hs⟩ := remove_spec_present t k hlt hany
      rw [h1] at h
      simp only [Option.some.injEq] at h
      subst h
      have hlany : l.any (fun p => decide (p.1 = k)) = true := by rw [← hanyeq]; exact hany
      obtain ⟨p, hp, hpk⟩ := List.any_eq_true.mp hlany
      have hlen := List.length_eraseP_of_mem (p := fun p : Int × V => decide (p.1 = k)) hp hpk
      have hpos : 0 < l.length := List.length_pos_of_mem hp
      refine ⟨?_, ?_⟩
      · rw [hs, hr.1]
        unfold assoc_remove
        rw [hlen]
        unfold size_t_decrement
        rw [if_neg (by omega)]
      · intro i
        by_cases hi : i = ⟨hash_map.hash k, hlt⟩
        · subst hi
          rw [hsame, map_eraseP_pair, hr.2]
          unfold assoc_remove
          rw [filter_eraseP_same_bucket k _ rfl]
        · rw [hother i hi, hr.2 i]
          unfold assoc_remove
          have hne : hash_map.hash k ≠ i.val := fun hk => hi (Fin.ext hk.symm)
          rw [filter_eraseP_other_bucket k _ hne]
    · rw [remove_of_lt t k hlt, if_neg hany] at h
      simp only [Option.some.injEq] at h
      subst h
      have hno : ∀ p ∈ l, ¬ (fun p : Int × V => decide (p.1 = k)) p = true := by
        intro p hp hpk
        exact hany (by rw [hanyeq]; exact List.any_eq_true.mpr ⟨p, hp, hpk⟩)
      unfold assoc_remove
      rw [List.eraseP_of_forall_not hno]
      exact hr
  · rw [remove_of_not_lt t k hlt] at h
    simp at h

theorem refines_clear (t : hash_map V) (l : List (Int × V)) :
    refines (clear t) (assoc_clear l) := by
  rw [clear_eq_new]
  exact refines_new

theorem refines_get (t : hash_map V) (l : List (Int × V)) (k : Int) (hr : refines t l)
    (hlt : hash_map.hash k < c_max_hash_map_head_nodes) :
    get t k = some (assoc_get l k) := by
  rw [get_of_lt t k hlt, get_walk_eq_assoc_get, hr.2, assoc_get_filter k _ rfl]

theorem refines_step (t t' : hash_map V) (l : List (Int × V)) (c : call V)
    (hr : refines t l) (h : apply_call t c = some t') : refines t' (assoc_apply l c) := by
  cases c with
  | insert k v => exact refines_insert t t' l k v hr h
  | remove k => exact refines_remove t t' l k hr h
  | clear =>
    simp only [apply_call, Option.some.injEq] at h
    rw [← h]
    exact refines_clear t l

theorem apply_call_returns (t : hash_map V) (c : call V) (hc : call_in_range c = true) :
    ∃ t', apply_call t c = some t' := by
  cases c with
  | insert k v =>
    have hlt : hash_map.hash k < c_max_hash_map_head_nodes := by simpa [call_in_range] using hc
    exact insert_returns t k v hlt
  | remove k =>
    have hlt : hash_map.hash k < c_max_hash_map_head_nodes := by simpa [call_in_range] using hc
    exact remove_returns t k hlt
  | clear => exact ⟨clear t, rfl⟩

theorem run_calls_refines (calls : List (call V)) :
    ∀ (t : hash_map V) (l : List (Int × V)), refines t l →
      (∀ c ∈ calls, call_in_range c = true) →
      ∃ t', run_calls t calls = some t' ∧ refines t' (assoc_run l calls) := by
  induction calls with
  | nil =>
    intro t l hr _
    exact ⟨t, rfl, hr⟩
  | cons c cs ih =>
    intro t l hr hin
    obtain ⟨t1, h1⟩ := apply_call_returns t c (hin c (List.mem_cons_self _ _))
    obtain ⟨t2, h2, hr2⟩ := ih t1 (assoc_apply l c) (refines_step t t1 l c hr h1)
      (fun d hd => hin d (List.mem_cons_of_mem _ hd))
    refine ⟨t2, ?_, hr2⟩
    unfold run_calls
    simp only [h1]
    exact h2

/-! ### Sequences of calls on in-range keys, and claims C15, C16 and C20 -/

/-- For every `n` and every list of `n` in-range keys with arbitrary
values, pairwise distinct or not, calling `insert` once per key on a newly
constructed table runs to the end and `size()` then returns `n`. -/
theorem size_after_inserts (entries : List (Int × V))
    (hr : ∀ p ∈ entries, hash_map.hash p.1 < c_max_hash_map_head_nodes) :
    ∃ t, run_calls new (insert_calls entries) = some t ∧ size t = entries.length := by
  obtain ⟨t, hrun, hs⟩ := run_insert_calls_size entries (new : hash_map V) hr
  refine ⟨t, hrun, ?_⟩
  show t.m_size = entries.length
  rw [hs]
  show 0 + entries.length = entries.length
  omega

/-- Example: the 26 pairwise-distinct keys `'a'` to `'z'` inserted by
the driver. -/
theorem size_after_inserts_witness :
    (∀ p ∈ driver_entries, hash_map.hash p.1 < c_max_hash_map_head_nodes) ∧
    (driver_entries.map Prod.fst).Nodup ∧ driver_entries.length = 26 ∧
    (∃ t, run_calls new (insert_calls driver_entries) = some t ∧
      size t = driver_entries.length) :=
  ⟨driver_entries_in_range, by decide, rfl,
    size_after_inserts driver_entries driver_entries_in_range⟩

/-- For every pair of distinct in-range keys `k1`, `k2`, in particular a
pair that hashes to the same bucket, and all values `v1`, `v2`: after
inserting both into a table containing neither, `get(k1)` is `v1` and
`get(k2)` is `v2`; after then removing either one of them, `get` of the
removed key is empty while `get` of the other key still returns its value.
The statement is symmetric in the two keys, so it covers both insertion
orders. -/
theorem colliding_keys_independent (t : hash_map V) (k1 k2 : Int) (v1 v2 : V)
    (hne : k1 ≠ k2)
    (h1 : hash_map.hash k1 < c_max_hash_map_head_nodes)
    (h2 : hash_map.hash k2 < c_max_hash_map_head_nodes)
    (ha1 : ¬ has_entry t k1) (ha2 : ¬ has_entry t k2) :
    ∃ ta tb, insert t k1 v1 = some ta ∧ insert ta k2 v2 = some tb ∧
      get tb k1 = some (some v1) ∧ get tb k2 = some (some v2) ∧
      (∃ tc, remove tb k1 = some tc ∧ get tc k1 = some none ∧ get tc k2 = some (some v2)) ∧
      (∃ td, remove tb k2 = some td ∧ get td k2 = some none ∧ get td k1 = some (some v1)) := by
  obtain ⟨ta, hta⟩ := insert_returns t k1 v1 h1
  obtain ⟨tb, htb⟩ := insert_returns ta k2 v2 h2
  obtain ⟨tc, htc⟩ := remove_returns tb k1 h1
  obtain ⟨td, htd⟩ := remove_returns tb k2 h2
  have hb1 : values_of tb k1 = [v1] := by
    rw [values_insert_of_ne ta tb k2 k1 v2 hne htb, values_insert_self t ta k1 v1 hta,
      values_of_absent t k1 ha1]
    rfl
  have hb2 : values_of tb k2 = [v2] := by
    rw [values_insert_self ta tb k2 v2 htb, values_insert_of_ne t ta k1 k2 v1 hne.symm hta,
      values_of_absent t k2 ha2]
    rfl
  refine ⟨ta, tb, hta, htb, ?_, ?_, ⟨tc, htc, ?_, ?_⟩, ⟨td, htd, ?_, ?_⟩⟩
  · rw [get_eq_head_values tb k1 h1, hb1]
    rfl
  · rw [get_eq_head_values tb k2 h2, hb2]
    rfl
  · rw [get_eq_head_values tc k1 h1, values_remove_self tb tc k1 htc, hb1]
    rfl
  · rw [get_eq_head_values tc k2 h2, values_remove_of_ne tb tc k1 k2 hne.symm htc, hb2]
    rfl
  · rw [get_eq_head_values td k2 h2, values_remove_self tb td k2 htd, hb2]
    rfl
  · rw [get_eq_head_values td k1 h1, values_remove_of_ne tb td k2 k1 hne htd, hb1]
    rfl

/-- Example: the keys `0` and `65535` both hash to bucket `0`; the
theorem is applied in both insertion orders. -/
theorem colliding_keys_independent_witness :
    ((0 : Int) ≠ 65535 ∧ hash_map.hash 0 = hash_map.hash 65535 ∧
      hash_map.hash 0 < c_max_hash_map_head_nodes ∧
      ¬ has_entry (new : hash_map Nat) 0 ∧ ¬ has_entry (new : hash_map Nat) 65535) ∧
    (∃ ta tb, insert (new : hash_map Nat) 0 5 = some ta ∧ insert ta 65535 6 = some tb ∧
      get tb 0 = some (some 5) ∧ get tb 65535 = some (some 6) ∧
      (∃ tc, remove tb 0 = some tc ∧ get tc 0 = some none ∧ get tc 65535 = some (some 6)) ∧
      (∃ td, remove tb 65535 = some td ∧ get td 65535 = some none ∧
        get td 0 = some (some 5))) ∧
    (∃ ta tb, insert (new : hash_map Nat) 65535 6 = some ta ∧ insert ta 0 5 = some tb ∧
      get tb 65535 = some (some 6) ∧ get tb 0 = some (some 5) ∧
      (∃ tc, remove tb 65535 = some tc ∧ get tc 65535 = some none ∧
        get tc 0 = some (some 5)) ∧
      (∃ td, remove tb 0 = some td ∧ get td 0 = some none ∧ get td 65535 = some (some 6))) :=
  ⟨⟨by decide, by decide, by decide, new_has_no_entry 0, new_has_no_entry 65535⟩,
    colliding_keys_independent new 0 65535 5 6 (by decide) (by decide) (by decide)
      (new_has_no_entry 0) (new_has_no_entry 65535),
    colliding_keys_independent new 65535 0 6 5 (by decide) (by decide) (by decide)
      (new_has_no_entry 65535) (new_has_no_entry 0)⟩

/-- Duplicate keys.  For every in-range key `k` absent from the table and
all values `v1`, `v2`: after `insert(k, v1)` then `insert(k, v2)`, `get(k)`
returns `v1` and `size()` has grown by `2`; after one `remove(k)`, `size()`
has dropped by exactly `1` and `get(k)` returns `v2`; after a second
`remove(k)`, `get(k)` is empty. -/
theorem duplicate_key_behaviour (t : hash_map V) (k : Int) (v1 v2 : V)
    (hk : hash_map.hash k < c_max_hash_map_head_nodes) (habs : ¬ has_entry t k) :
    ∃ ta tb tc td, insert t k v1 = some ta ∧ insert ta k v2 = some tb ∧
      get tb k = some (some v1) ∧ size tb = size t + 2 ∧
      remove tb k = some tc ∧ size tc + 1 = size tb ∧ get tc k = some (some v2) ∧
      remove tc k = some td ∧ get td k = some none := by
  obtain ⟨ta, hta, _, _, hsa⟩ := insert_spec t k v1 hk
  obtain ⟨tb, htb, _, _, hsb⟩ := insert_spec ta k v2 hk
  have hb : values_of tb k = [v1, v2] := by
    rw [values_insert_self ta tb k v2 htb, values_insert_self t ta k v1 hta,
      values_of_absent t k habs]
    rfl
  have hanyb : (tb.m_memory_bucket ⟨hash_map.hash k, hk⟩).any
      (fun e => decide (e.key = k)) = true := by
    by_contra hno
    have hf : (tb.m_memory_bucket ⟨hash_map.hash k, hk⟩).filter
        (fun e => decide (e.key = k)) = [] := by
      rw [List.filter_eq_nil_iff]
      intro e he hp
      exact hno (List.any_eq_true.mpr ⟨e, he, hp⟩)
    rw [values_of_of_lt tb k hk, hf] at hb
    simp at hb
  obtain ⟨tc, htc, _, _, hsc⟩ := remove_spec_present tb k hk hanyb
  obtain ⟨td, htd⟩ := remove_returns tc k hk
  have hc : values_of tc k = [v2] := by
    rw [values_remove_self tb tc k htc, hb]
    rfl
  refine ⟨ta, tb, tc, td, hta, htb, ?_, ?_, htc, ?_, ?_, htd, ?_⟩
  · rw [get_eq_head_values tb k hk, hb]
    rfl
  · show tb.m_size = t.m_size + 2
    rw [hsb, hsa]
  · show tc.m_size + 1 = tb.m_size
    rw [hsc, hsb, size_t_decrement_succ]
  · rw [get_eq_head_values tc k hk, hc]
    rfl
  · rw [get_eq_head_values td k hk, values_remove_self tc td k htd, hc]
    rfl

/-- Example: key `131071` is absent from `demo_table` and shares bucket
`1` with three entries of other keys. -/
theorem duplicate_key_behaviour_witness :
    hash_map.hash 131071 < c_max_hash_map_head_nodes ∧ ¬ has_entry demo_table 131071 ∧
    (∃ ta tb tc td, insert demo_table 131071 8 = some ta ∧ insert ta 131071 9 = some tb ∧
      get tb 131071 = some (some 8) ∧ size tb = size demo_table + 2 ∧
      remove tb 131071 = some tc ∧ size tc + 1 = size tb ∧ get tc 131071 = some (some 9) ∧
      remove tc 131071 = some td ∧ get td 131071 = some none) :=
  ⟨by decide, demo_table_no_entry_131071,
    duplicate_key_behaviour demo_table 131071 8 9 (by decide) demo_table_no_entry_131071⟩

/-- For every table, in-range key `k` and value `v`, `insert(k, v)`
changes the chain of bucket `hash(k)` from `c` to `c` followed by the single
new entry `(k, v)`, which is the head when `c` is empty and the tail
otherwise, keeps the entries of `c` in their order, and leaves the chain of
every other bucket unchanged. -/
theorem insert_appends_to_chain (t : hash_map V) (k : Int) (v : V)
    (hk : hash_map.hash k < c_max_hash_map_head_nodes) :
    ∃ t', insert t k v = some t' ∧
      t'.m_memory_bucket ⟨hash_map.hash k, hk⟩
        = t.m_memory_bucket ⟨hash_map.hash k, hk⟩ ++ [{ key := k, value := v }] ∧
      (t.m_memory_bucket ⟨hash_map.hash k, hk⟩ = [] →
        t'.m_memory_bucket ⟨hash_map.hash k, hk⟩ = [{ key := k, value := v }]) ∧
      (t'.m_memory_bucket ⟨hash_map.hash k, hk⟩).getLast? = some { key := k, value := v } ∧
      (∀ j, j ≠ (⟨hash_map.hash k, hk⟩ : Fin c_max_hash_map_head_nodes) →
        t'.m_memory_bucket j = t.m_memory_bucket j) := by
  obtain ⟨t', ht', hsame, hother, _⟩ := insert_spec t k v hk
  refine ⟨t', ht', hsame, ?_, ?_, hother⟩
  · intro hnil
    rw [hsame, hnil]
    rfl
  · rw [hsame]
    simp

/-- Example: in `demo_table` bucket `1` holds three entries and bucket
`2` is empty. -/
theorem insert_appends_to_chain_witness :
    (hash_map.hash 131071 < c_max_hash_map_head_nodes ∧
      ∃ t', insert demo_table 131071 5 = some t' ∧
        t'.m_memory_bucket ⟨1, by decide⟩
          = [{ key := 1, value := 10 }, { key := 65536, value := 20 },
             { key := 1, value := 30 }, { key := 131071, value := 5 }]) ∧
    (hash_map.hash 2 < c_max_hash_map_head_nodes ∧
      ∃ t', insert demo_table 2 5 = some t' ∧
        t'.m_memory_bucket ⟨2, by decide⟩ = [{ key := 2, value := 5 }]) := by
  refine ⟨⟨by decide, ?_⟩, ⟨by decide, ?_⟩⟩
  · obtain ⟨t', ht', hsame, _, _, _⟩ :=
      insert_appends_to_chain demo_table 131071 5 (by decide)
    exact ⟨t', ht', hsame.trans
      (congrArg (fun c => c ++ [({ key := 131071, value := 5 } : hash_map_node Nat)])
        demo_table_bucket_1)⟩
  · obtain ⟨t', ht', _, hhead, _, _⟩ := insert_appends_to_chain demo_table 2 5 (by decide)
    exact ⟨t', ht', hhead demo_table_bucket_2⟩

/-- C15: for every table and in-range key `k` that has at least one entry in
bucket `hash(k)`, `remove(k)` succeeds and deletes exactly the first entry
with key `k` of that chain, be it the head or an inner or tail node: the
chain splits as `before ++ e :: after` with `e` its first entry with key `k`
and becomes `before ++ after`, so every other entry, later entries with key
`k` included, stays in the same relative order.  Every other bucket is
unchanged, and `m_size` is decremented: by exactly `1` whenever the counter is
the number of stored entries, as it is in every reachable table. -/
theorem remove_deletes_first_match (t : hash_map V) (k : Int)
    (hk : hash_map.hash k < c_max_hash_map_head_nodes)
    (hmem : ∃ e ∈ t.m_memory_bucket ⟨hash_map.hash k, hk⟩, e.key = k) :
    ∃ (t' : hash_map V) (before : List (hash_map_node V)) (e : hash_map_node V)
        (after : List (hash_map_node V)),
      remove t k = some t' ∧
      t.m_memory_bucket ⟨hash_map.hash k, hk⟩ = before ++ e :: after ∧
      (∀ x ∈ before, x.key ≠ k) ∧ e.key = k ∧
      t'.m_memory_bucket ⟨hash_map.hash k, hk⟩ = before ++ after ∧
      (∀ j, j ≠ (⟨hash_map.hash k, hk⟩ : Fin c_max_hash_map_head_nodes) →
        t'.m_memory_bucket j = t.m_memory_bucket j) ∧
      size t' = size_t_decrement (size t) ∧
      (t.m_size = entry_count t → size t' + 1 = size t) ∧
      (Reachable t → size t' + 1 = size t) := by
  obtain ⟨before, e, after, hc, hb, he⟩ := exists_first_match k _ hmem
  have hany : (t.m_memory_bucket ⟨hash_map.hash k, hk⟩).any
      (fun e => decide (e.key = k)) = true := by
    obtain ⟨x, hx, hxk⟩ := hmem
    exact any_of_mem_key k _ x hx hxk
  obtain ⟨t', ht', hsame, hother, hs⟩ := remove_spec_present t k hk hany
  have hinv : t.m_size = entry_count t → size t' + 1 = size t := by
    intro hcount
    have hpos := entry_count_pos_of_any t k _ hany
    show t'.m_size + 1 = t.m_size
    rw [hs]
    exact size_t_decrement_of_pos t.m_size (by omega)
  refine ⟨t', before, e, after, ht', hc, hb, he, ?_, hother, hs, hinv, ?_⟩
  · rw [hsame, hc, eraseP_first_match k before e after hb he]
  · intro hr
    exact hinv (size_invariant_reachable t hr)

/-- Witness of C15: in `demo_table` the chain of bucket `1` holds the keys `1`,
`65536`, `1`; key `65536` sits in an inner node. -/
theorem remove_deletes_first_match_witness :
    hash_map.hash 65536 < c_max_hash_map_head_nodes ∧
    (∃ e ∈ demo_table.m_memory_bucket ⟨1, by decide⟩, e.key = 65536) ∧
    (∃ (t' : hash_map Nat) (before : List (hash_map_node Nat)) (e : hash_map_node Nat)
        (after : List (hash_map_node Nat)),
      remove demo_table 65536 = some t' ∧
      demo_table.m_memory_bucket ⟨1, by decide⟩ = before ++ e :: after ∧
      (∀ x ∈ before, x.key ≠ 65536) ∧ e.key = 65536 ∧
      t'.m_memory_bucket ⟨1, by decide⟩ = before ++ after ∧
      (∀ j, j ≠ (⟨1, by decide⟩ : Fin c_max_hash_map_head_nodes) →
        t'.m_memory_bucket j = demo_table.m_memory_bucket j) ∧
      size t' = size_t_decrement (size demo_table) ∧
      (demo_table.m_size = entry_count demo_table → size t' + 1 = size demo_table) ∧
      (Reachable demo_table → size t' + 1 = size demo_table)) :=
  ⟨by decide, ⟨{ key := 65536, value := 20 }, by decide, rfl⟩,
    remove_deletes_first_match demo_table 65536 (by decide)
      ⟨{ key := 65536, value := 20 }, by decide, rfl⟩⟩

/-- C16: on every table state the loop of `clear()` terminates: its run ends
with the 16-bit counter at `N = c_max_hash_map_head_nodes`, after exactly `N`
iterations that visit the slot indices `0, 1, ..., N - 1` in this order, each
exactly once, and leaves the bucket array of `clear`.  No increment of the
counter wraps around: `i + 1` stays below `2 ^ 16` for every visited `i`. -/
theorem clear_loop_visits_every_slot_once (t : hash_map V) :
    clear_loop_trace 0 t.m_memory_bucket []
      = (c_max_hash_map_head_nodes, List.range c_max_hash_map_head_nodes,
         (clear t).m_memory_bucket) ∧
    (List.range c_max_hash_map_head_nodes).length = c_max_hash_map_head_nodes ∧
    (List.range c_max_hash_map_head_nodes).Nodup ∧
    (∀ i, i ∈ List.range c_max_hash_map_head_nodes ↔ i < c_max_hash_map_head_nodes) ∧
    (∀ i ∈ List.range c_max_hash_map_head_nodes, (i + 1) % 2 ^ 16 = i + 1) ∧
    c_max_hash_map_head_nodes < 2 ^ 16 := by
  refine ⟨?_, List.length_range _, List.nodup_range _, fun i => List.mem_range, ?_, ?_⟩
  · rw [clear_loop_trace_eq _ 0 t.m_memory_bucket [] rfl (Nat.zero_le _), List.nil_append,
      Nat.sub_zero, ← List.range_eq_range']
    unfold clear
    simp only
  · intro i hi
    have hlt : i < c_max_hash_map_head_nodes := List.mem_range.mp hi
    have := c_max_eq
    exact Nat.mod_eq_of_lt (by omega)
  · have := c_max_eq
    omega

/-- Witness of C16: the run of the loop on `demo_table`. -/
theorem clear_loop_visits_every_slot_once_witness :
    (clear_loop_trace 0 demo_table.m_memory_bucket []).1 = c_max_hash_map_head_nodes ∧
    (clear_loop_trace 0 demo_table.m_memory_bucket []).2.1
      = List.range c_max_hash_map_head_nodes ∧
    (65534 ∈ List.range c_max_hash_map_head_nodes → (65534 + 1) % 2 ^ 16 = 65534 + 1) :=
  ⟨by rw [(clear_loop_visits_every_slot_once demo_table).1],
    by rw [(clear_loop_visits_every_slot_once demo_table).1],
    (clear_loop_visits_every_slot_once demo_table).2.2.2.2.1 65534⟩

/-- In every reachable table each entry stored in the chain of bucket `i`
has a key with `hash(key) = i`; consequently every key that has an entry is in
range, and for every in-range key `k`, `get(k)` returns empty if and only if
no entry with key `k` exists anywhere in the table. -/
theorem reachable_bucket_consistent (t : hash_map V) (hr : Reachable t) :
    (∀ (i : Fin c_max_hash_map_head_nodes) (e : hash_map_node V),
      e ∈ t.m_memory_bucket i → hash_map.hash e.key = i.val) ∧
    (∀ k, has_entry t k → hash_map.hash k < c_max_hash_map_head_nodes) ∧
    (∀ k, hash_map.hash k < c_max_hash_map_head_nodes →
      (get t k = some none ↔ ¬ has_entry t k)) := by
  have hcons := bucket_consistent_reachable t hr
  refine ⟨hcons, fun k hk => hash_lt_of_has_entry t k hcons hk, ?_⟩
  intro k hk
  rw [get_of_lt t k hk]
  simp only [Option.some.injEq]
  rw [get_walk_eq_none_iff]
  constructor
  · intro hno hent
    have hany := any_of_has_entry t k hcons hent hk
    exact any_eq_false_of_absent k _ hno hany
  · intro hno e he hek
    exact hno ⟨_, e, he, hek⟩

/-- Example: the reachable `demo_table` at key `2`. -/
theorem reachable_bucket_consistent_witness :
    Reachable demo_table ∧ hash_map.hash 2 < c_max_hash_map_head_nodes ∧
    (get demo_table 2 = some none ↔ ¬ has_entry demo_table 2) ∧
    get demo_table 2 = some none :=
  ⟨demo_table_reachable, by decide,
    (reachable_bucket_consistent demo_table demo_table_reachable).2.2 2 (by decide),
    ((reachable_bucket_consistent demo_table demo_table_reachable).2.2 2 (by decide)).mpr
      demo_table_no_entry_2⟩

/-- For every table, all keys `k ≠ k'`, sharing a bucket or not, with `k`
in range, and every value `v`: `insert(k, v)` succeeds and `get(k')` returns
the same result after it as before it, and `remove(k)` succeeds and `get(k')`
returns the same result after it as before it. -/
theorem get_other_key_unchanged (t : hash_map V) (k k' : Int) (v : V)
    (hne : k ≠ k') (hk : hash_map.hash k < c_max_hash_map_head_nodes) :
    (∃ t1, insert t k v = some t1 ∧ get t1 k' = get t k') ∧
    (∃ t2, remove t k = some t2 ∧ get t2 k' = get t k') := by
  obtain ⟨t1, h1⟩ := insert_returns t k v hk
  obtain ⟨t2, h2⟩ := remove_returns t k hk
  exact ⟨⟨t1, h1, get_insert_of_ne t t1 k k' v hne.symm h1⟩,
    ⟨t2, h2, get_remove_of_ne t t2 k k' hne.symm h2⟩⟩

/-- Example: in `demo_table` the keys `1` and `65536` share bucket `1`,
and key `7` sits in another bucket. -/
theorem get_other_key_unchanged_witness :
    ((1 : Int) ≠ 65536 ∧ hash_map.hash 1 = hash_map.hash 65536 ∧
      hash_map.hash 1 < c_max_hash_map_head_nodes ∧
      (∃ t1, insert demo_table 1 99 = some t1 ∧ get t1 65536 = get demo_table 65536) ∧
      (∃ t2, remove demo_table 1 = some t2 ∧ get t2 65536 = get demo_table 65536)) ∧
    ((1 : Int) ≠ 7 ∧ hash_map.hash 1 ≠ hash_map.hash 7 ∧
      (∃ t1, insert demo_table 1 99 = some t1 ∧ get t1 7 = get demo_table 7) ∧
      (∃ t2, remove demo_table 1 = some t2 ∧ get t2 7 = get demo_table 7)) :=
  ⟨⟨by decide, by decide, by decide,
      (get_other_key_unchanged demo_table 1 65536 99 (by decide) (by decide)).1,
      (get_other_key_unchanged demo_table 1 65536 99 (by decide) (by decide)).2⟩,
    ⟨by decide, by decide,
      (get_other_key_unchanged demo_table 1 7 99 (by decide) (by decide)).1,
      (get_other_key_unchanged demo_table 1 7 99 (by decide) (by decide)).2⟩⟩

/-- For every table, every in-range key `k` with no entry in bucket
`hash(k)` and every value `v`, `insert(k, v)` followed by `remove(k)` restores
the table exactly, every bucket chain and the size counter, whether the bucket
was empty or held a chain of other keys. -/
theorem insert_then_remove_restores (t : hash_map V) (k : Int) (v : V)
    (hk : hash_map.hash k < c_max_hash_map_head_nodes)
    (habs : ∀ e ∈ t.m_memory_bucket ⟨hash_map.hash k, hk⟩, e.key ≠ k) :
    ∃ t1, insert t k v = some t1 ∧ remove t1 k = some t := by
  refine ⟨_, insert_of_lt t k v hk, ?_⟩
  rw [remove_of_lt _ k hk]
  simp only [Function.update_same, Function.update_idem]
  have hany : (t.m_memory_bucket ⟨hash_map.hash k, hk⟩
      ++ [({ key := k, value := v } : hash_map_node V)]).any
      (fun e => decide (e.key = k)) = true :=
    any_of_mem_key k _ ({ key := k, value := v } : hash_map_node V) (by simp) rfl
  rw [if_pos hany,
    eraseP_first_match k _ ({ key := k, value := v } : hash_map_node V) [] habs rfl,
    List.append_nil, Function.update_eq_self, size_t_decrement_succ]

/-- Example: in `demo_table` bucket `2` is empty and bucket `1`, the
bucket of key `131071`, holds a chain of other keys. -/
theorem insert_then_remove_restores_witness :
    (hash_map.hash 2 < c_max_hash_map_head_nodes ∧
      demo_table.m_memory_bucket ⟨2, by decide⟩ = [] ∧
      ∃ t1, insert demo_table 2 5 = some t1 ∧ remove t1 2 = some demo_table) ∧
    (hash_map.hash 131071 < c_max_hash_map_head_nodes ∧
      demo_table.m_memory_bucket ⟨1, by decide⟩
        = [{ key := 1, value := 10 }, { key := 65536, value := 20 },
           { key := 1, value := 30 }] ∧
      ∃ t1, insert demo_table 131071 5 = some t1 ∧ remove t1 131071 = some demo_table) :=
  ⟨⟨by decide, demo_table_bucket_2,
      insert_then_remove_restores demo_table 2 5 (by decide)
        (fun e he => by
          have he2 : e ∈ demo_table.m_memory_bucket ⟨2, by decide⟩ := he
          rw [demo_table_bucket_2] at he2
          simp at he2)⟩,
    ⟨by decide, demo_table_bucket_1,
      insert_then_remove_restores demo_table 131071 5 (by decide)
        (fun e he hk => demo_table_no_entry_131071 ⟨_, e, he, hk⟩)⟩⟩

/-- C20: the table refines a single association list.  For every finite
sequence of `insert`/`remove`/`clear` calls with in-range keys applied to a
newly constructed table, the sequence runs to the end, `size()` equals the
size of the reference model run on the same calls, and `get(k)` equals the
model's `get(k)` for every in-range key `k`.  In the model `insert` appends to
the end of one list of (key, value) pairs, `get` returns the value of the
first pair with key `k`, `remove` erases the first pair with key `k`, `clear`
empties the list and `size` is its length.  Every prefix of such a sequence is
such a sequence, so the results agree after each call. -/
theorem refines_association_list (calls : List (call V))
    (hin : ∀ c ∈ calls, call_in_range c = true) :
    ∃ t, run_calls new calls = some t ∧
      size t = assoc_size (assoc_run [] calls) ∧
      ∀ k, hash_map.hash k < c_max_hash_map_head_nodes →
        get t k = some (assoc_get (assoc_run [] calls) k) := by
  obtain ⟨t, hrun, hr⟩ := run_calls_refines calls (new : hash_map V) [] refines_new hin
  exact ⟨t, hrun, hr.1, fun k hk => refines_get t _ k hr hk⟩

/-- Witness of C20: `demo_calls` followed by `remove(1)`; the model list is
`(65536, 20), (1, 30), (7, 70)`. -/
theorem refines_association_list_witness :
    (∀ c ∈ demo_calls ++ [call.remove 1], call_in_range c = true) ∧
    assoc_run [] (demo_calls ++ [call.remove 1]) = [(65536, 20), (1, 30), (7, 70)] ∧
    hash_map.hash 1 < c_max_hash_map_head_nodes ∧
    (∃ t, run_calls new (demo_calls ++ [call.remove 1]) = some t ∧
      size t = assoc_size (assoc_run [] (demo_calls ++ [call.remove 1])) ∧
      ∀ k, hash_map.hash k < c_max_hash_map_head_nodes →
        get t k = some (assoc_get (assoc_run [] (demo_calls ++ [call.remove 1])) k)) :=
  ⟨by decide, by decide, by decide,
    refines_association_list (demo_calls ++ [call.remove 1]) (by decide)⟩

/-! ### Claims that fail at a key without a bucket

Key `-1`, a key of every signed key type, has bucket index `65535`, one past
the last slot (`hash_minus_one_out_of_bounds`).  The claims below are stated
for every key; each theorem evaluates the code at key `-1`, where the call
has no defined result. -/

/-- C1 fails on the code at key `-1`: the newly constructed table is reachable
and key `-1` has no entry in it, yet `insert(-1, 0)` indexes past the bucket
array and has no defined result, so no table is produced on which `get(-1)`
returns `0`. -/
theorem insert_get_key_without_bucket :
    Reachable (new : hash_map Nat) ∧ ¬ has_entry (new : hash_map Nat) (-1) ∧
    insert (new : hash_map Nat) (-1) 0 = none ∧
    ¬ ∃ t', insert (new : hash_map Nat) (-1) 0 = some t' ∧ get t' (-1) = some (some 0) :=
  ⟨⟨[], rfl⟩, new_has_no_entry (-1), rfl, by
    rintro ⟨t', h, _⟩
    rw [insert_of_not_lt _ _ _ (by decide)] at h
    exact Option.noConfusion h⟩

/-- C2 fails on the code at key `-1`: there is no bucket `hash(-1)`, and
`get(-1)` reads past the bucket array; it returns neither a value nor empty,
although no entry of the table has key `-1`. -/
theorem get_key_without_bucket :
    get_head_node (-1) = none ∧ ¬ has_entry demo_table (-1) ∧
    get demo_table (-1) = none ∧ get demo_table (-1) ≠ some none := by
  refine ⟨by decide, ?_, rfl, ?_⟩
  · intro h
    have := hash_lt_of_has_entry demo_table (-1)
      (bucket_consistent_reachable demo_table demo_table_reachable) h
    exact absurd this (by decide)
  · rw [get_of_not_lt _ _ (by decide)]
    exact fun h => Option.noConfusion h

/-- C4 fails on the code at key `-1`: key `-1` has no entry in the newly
constructed table, yet `remove(-1)` reads past the bucket array instead of
returning the table unchanged. -/
theorem remove_key_without_bucket :
    ¬ has_entry (new : hash_map Nat) (-1) ∧
    remove (new : hash_map Nat) (-1) = none ∧
    remove (new : hash_map Nat) (-1) ≠ some new := by
  refine ⟨new_has_no_entry (-1), rfl, ?_⟩
  rw [remove_of_not_lt _ _ (by decide)]
  exact fun h => Option.noConfusion h

/-- C5 fails on the code at key `-1`: after `clear()` every slot is empty and
`size()` is `0`, but `get(-1)` reads past the bucket array and does not return
empty. -/
theorem get_after_clear_key_without_bucket :
    size (clear demo_table) = 0 ∧
    get (clear demo_table) (-1) = none ∧ get (clear demo_table) (-1) ≠ some none := by
  refine ⟨rfl, get_of_not_lt _ _ (by decide), ?_⟩
  rw [get_of_not_lt _ _ (by decide)]
  exact fun h => Option.noConfusion h

/-- C10 fails on the code at key `-1`: `insert(-1, 0)` indexes past the bucket
array and has no defined result, so no table with `size()` one larger is
produced. -/
theorem insert_size_key_without_bucket :
    insert demo_table (-1) 0 = none ∧
    ¬ ∃ t', insert demo_table (-1) 0 = some t' ∧ size t' = size demo_table + 1 :=
  ⟨insert_of_not_lt _ _ _ (by decide), by
    rintro ⟨t', h, _⟩
    rw [insert_of_not_lt _ _ _ (by decide)] at h
    exact Option.noConfusion h⟩

/-- C11 fails on the code for the one-key list `-1`: its keys are pairwise
distinct, yet the single `insert` call on a newly constructed table indexes
past the bucket array, so the run has no defined result and `size()` does not
return `1`. -/
theorem inserts_size_key_without_bucket :
    (([((-1 : Int), (0 : Nat))] : List (Int × Nat)).map Prod.fst).Nodup ∧
    run_calls (new : hash_map Nat) (insert_calls [((-1 : Int), (0 : Nat))]) = none ∧
    ¬ ∃ t, run_calls (new : hash_map Nat) (insert_calls [((-1 : Int), (0 : Nat))]) = some t ∧
        size t = 1 :=
  ⟨by decide, rfl, by
    rintro ⟨t, h, _⟩
    have hnone : run_calls (new : hash_map Nat) (insert_calls [((-1 : Int), (0 : Nat))])
        = none := rfl
    rw [hnone] at h
    exact Option.noConfusion h⟩

/-- C12 fails on the code for the keys `-1` and `-65536`: they are distinct
and hash to the same index, `65535`, for which no bucket exists; inserting
either of them into the newly constructed table, which contains neither,
indexes past the bucket array. -/
theorem colliding_keys_without_bucket :
    (-1 : Int) ≠ -65536 ∧ hash_map.hash (-1) = hash_map.hash (-65536) ∧
    hash_map.hash (-1) = 65535 ∧
    ¬ has_entry (new : hash_map Nat) (-1) ∧ ¬ has_entry (new : hash_map Nat) (-65536) ∧
    insert (new : hash_map Nat) (-1) 5 = none ∧
    insert (new : hash_map Nat) (-65536) 6 = none :=
  ⟨by decide, by decide, by decide, new_has_no_entry _, new_has_no_entry _, rfl, rfl⟩

/-- C13 fails on the code at key `-1`: the key is absent from the newly
constructed table, yet the first `insert(-1, 1)` of the duplicate-key scenario
already indexes past the bucket array and has no defined result. -/
theorem duplicate_key_without_bucket :
    ¬ has_entry (new : hash_map Nat) (-1) ∧
    insert (new : hash_map Nat) (-1) 1 = none ∧
    ¬ ∃ ta tb, insert (new : hash_map Nat) (-1) 1 = some ta ∧ insert ta (-1) 2 = some tb ∧
        get tb (-1) = some (some 1) :=
  ⟨new_has_no_entry (-1), rfl, by
    rintro ⟨ta, tb, h, _⟩
    rw [insert_of_not_lt _ _ _ (by decide)] at h
    exact Option.noConfusion h⟩

/-- C14 fails on the code at key `-1`: there is no bucket `hash(-1)` whose
chain could receive the new entry; `insert(-1, 0)` writes past the bucket
array instead. -/
theorem insert_chain_key_without_bucket :
    hash_map.hash (-1) = c_max_hash_map_head_nodes ∧
    (∀ i : Fin c_max_hash_map_head_nodes, i.val ≠ hash_map.hash (-1)) ∧
    get_head_node (-1) = none ∧ insert demo_table (-1) 0 = none :=
  ⟨by decide, fun i h => absurd (h ▸ i.isLt) (by decide), by decide,
    insert_of_not_lt _ _ _ (by decide)⟩

/-- C17 fails on the code at key `-1` in its consequence: the newly
constructed table is reachable and holds no entry with key `-1`, yet
`get(-1)` reads past the bucket array and does not return empty.  The
invariant itself holds in every reachable table
(`bucket_consistent_reachable`). -/
theorem get_empty_key_without_bucket :
    Reachable (new : hash_map Nat) ∧ bucket_consistent (new : hash_map Nat) ∧
    ¬ has_entry (new : hash_map Nat) (-1) ∧
    get (new : hash_map Nat) (-1) = none ∧ get (new : hash_map Nat) (-1) ≠ some none := by
  refine ⟨⟨[], rfl⟩, bucket_consistent_new, new_has_no_entry (-1), rfl, ?_⟩
  rw [get_of_not_lt _ _ (by decide)]
  exact fun h => Option.noConfusion h

/-- C18 fails on the code at `k = -1`, `k' = 1`: `insert(-1, 0)` and
`remove(-1)` index past the bucket array and have no defined result, so there
is no table afterwards on which `get(1)` returns what it returned before,
`10`. -/
theorem frame_key_without_bucket :
    (-1 : Int) ≠ 1 ∧ get demo_table 1 = some (some 10) ∧
    insert demo_table (-1) 0 = none ∧ remove demo_table (-1) = none ∧
    (¬ ∃ t1, insert demo_table (-1) 0 = some t1 ∧ get t1 1 = get demo_table 1) ∧
    (¬ ∃ t2, remove demo_table (-1) = some t2 ∧ get t2 1 = get demo_table 1) := by
  refine ⟨by decide, rfl, insert_of_not_lt _ _ _ (by decide),
    remove_of_not_lt _ _ (by decide), ?_, ?_⟩
  · rintro ⟨t1, h, _⟩
    rw [insert_of_not_lt _ _ _ (by decide)] at h
    exact Option.noConfusion h
  · rintro ⟨t2, h, _⟩
    rw [remove_of_not_lt _ _ (by decide)] at h
    exact Option.noConfusion h

/-- C19 fails on the code at key `-1`: no bucket holds an entry with key `-1`,
yet `insert(-1, 0)` indexes past the bucket array and has no defined result,
so no `remove(-1)` follows that restores the table. -/
theorem round_trip_key_without_bucket :
    (∀ i : Fin c_max_hash_map_head_nodes, ∀ e ∈ demo_table.m_memory_bucket i, e.key ≠ -1) ∧
    insert demo_table (-1) 0 = none ∧
    ¬ ∃ t1, insert demo_table (-1) 0 = some t1 ∧ remove t1 (-1) = some demo_table := by
  refine ⟨?_, insert_of_not_lt _ _ _ (by decide), ?_⟩
  · intro i e he hk
    have := hash_lt_of_has_entry demo_table (-1)
      (bucket_consistent_reachable demo_table demo_table_reachable) ⟨i, e, he, hk⟩
    exact absurd this (by decide)
  · rintro ⟨t1, h, _⟩
    rw [insert_of_not_lt _ _ _ (by decide)] at h
    exact Option.noConfusion h

end hash_map

end syp
